import Mathlib

/-!
Verification development for a grok-style pattern-templating compiler and matcher
(`src/lib.rs`).  The library compiles a macro-based pattern language (placeholders
of the form `%\x7b FRAGMENT(:ALIAS(:TYPE)?)? \x7d` referring to named regular
expression fragments) into a single regular expression plus an alias map, and then
extracts typed fields from matched text.

The Rust source is embedded shallowly:

* strings are `List Char` (`Str`);
* `HashMap` is an association list queried through `alGet` and updated through
  `alInsert` (which removes any previous binding for the key, as `HashMap::insert`
  does; list order is internal bookkeeping that `alGet` ignores);
* the scanner regex `GROK_PATTERN` is implemented as the character-level matcher
  `matchAt` / `grokFind` (leftmost match, with the backtracking preferences of the
  `regex` crate on this pattern);
* the two loops of `Grok::compile` become `innerLoop` / `expandLoop`; because the
  inner `while` of the source can run forever, both loops take an explicit fuel
  argument and return `none` when the fuel is exhausted (a run of the real code
  that terminates is a run of the model with a sufficiently large fuel);
* the external regex engine is out of scope (per the specification): final regex
  compilation is a parameter `regexOk` of `compile`, and the match result consumed
  by `Pattern::parse` is a parameter of `parse` (the list of capture-group names of
  the compiled regex, in order of appearance, and the participating captures of the
  first match, or `none` when the regex matched nowhere);
* `f64` values are represented exactly: a parsed float literal is kept as the exact
  rational value of the decimal (or inf/nan); the IEEE-754 rounding applied by the
  engine is abstracted away, while the accepted grammar is Rust's `f64::from_str`
  grammar.
-/

/-- Strings, as character lists (Rust `String` / `&str`). -/
abbrev Str := List Char

/-- Left brace character, written via its code point. -/
def lbrace : Char := Char.ofNat 123

/-- Right brace character, written via its code point. -/
def rbrace : Char := Char.ofNat 125

/-- `[[:word:]]` of the scanner regex: ASCII alphanumeric or underscore. -/
def isWordChar (c : Char) : Bool := c.isAlphanum || c = '_'

/-- `[[[:word:]]@.-]` of the scanner regex: word characters plus `@`, `.`, `-`. -/
def isAliasChar (c : Char) : Bool := isWordChar c || c = '@' || c = '.' || c = '-'

/-- Association-list lookup, modelling `HashMap::get`. -/
def alGet {α : Type} (m : List (Str × α)) (k : Str) : Option α :=
  match m.find? (fun p => p.1 == k) with
  | some p => some p.2
  | none => none

/-- Association-list insert, modelling `HashMap::insert`: any previous binding of
the key is removed and the new one recorded. -/
def alInsert {α : Type} (m : List (Str × α)) (k : Str) (v : α) : List (Str × α) :=
  (m.filter (fun p => !(p.1 == k))) ++ [(k, v)]

/-- Captures of one `GROK_PATTERN` match: the `pattern` group (fragment name) and
the optional `alias` and `type` groups. -/
structure GrokCaps where
  pattern : Str
  alias? : Option Str
  type? : Option Str
  deriving DecidableEq, Repr

/-- The type tag literals of the scanner regex: `int|float|bool(?:ean)?`. -/
def tyInt : Str := "int".data
def tyFloat : Str := "float".data
def tyBool : Str := "bool".data
def tyBoolean : Str := "boolean".data

/-- The type alternation followed by the closing brace: which (if any) of the
four type literals, each followed by the closing brace, begins here.  The
closing-brace check resolves the regex engine's backtracking among the
alternatives `int|float|bool(?:ean)?`. -/
def matchTypeBrace (s : Str) : Option Str :=
  if (tyInt ++ [rbrace]).isPrefixOf s then some tyInt
  else if (tyFloat ++ [rbrace]).isPrefixOf s then some tyFloat
  else if (tyBoolean ++ [rbrace]).isPrefixOf s then some tyBoolean
  else if (tyBool ++ [rbrace]).isPrefixOf s then some tyBool
  else none

/-- The `(:ALIAS(:TYPE)?)?` tail of a placeholder attempt, after the `:`
following the fragment name: a nonempty alias-character run, then either the
closing brace, or `:` and a type literal with the closing brace.  Since `:` and
the closing brace are not alias characters, the greedy run never backtracks, and
a failed tail cannot be rescued. -/
def matchAliasPart (p r2 : Str) : Option GrokCaps :=
  let a := r2.takeWhile isAliasChar
  if a.isEmpty then none
  else
    match r2.dropWhile isAliasChar with
    | [] => none
    | c :: r4 =>
      if c = ':' then
        match matchTypeBrace r4 with
        | some t => some ⟨p, some a, some t⟩
        | none => none
      else if c = rbrace then some ⟨p, some a, none⟩ else none

/-- The body of a placeholder attempt, after `%` and the opening brace: a
nonempty word-character run (the fragment name), then either the closing brace
or `:` and the alias part. -/
def matchBody (r : Str) : Option GrokCaps :=
  let p := r.takeWhile isWordChar
  if p.isEmpty then none
  else
    match r.dropWhile isWordChar with
    | [] => none
    | c :: r2 =>
      if c = ':' then matchAliasPart p r2
      else if c = rbrace then some ⟨p, none, none⟩ else none

/-- One attempt of `GROK_PATTERN` at the start of `s`: `%` and the opening
brace, then the body.  This reproduces the regex engine's behaviour of
`GROK_PATTERN` at one start position. -/
def matchAt (s : Str) : Option GrokCaps :=
  match s with
  | a :: b :: r => if a = '%' ∧ b = lbrace then matchBody r else none
  | _ => none

/-- `GROK_REGEX.captures`: leftmost match of the placeholder pattern in `s`. -/
def grokFind (s : Str) : Option GrokCaps :=
  match s with
  | [] => none
  | _ :: t =>
    match matchAt s with
    | some c => some c
    | none => grokFind t

/-- The text of capture group 1 (`name`): `FRAGMENT(:ALIAS(:TYPE)?)?`. -/
def nameOf (c : GrokCaps) : Str :=
  c.pattern ++
    (match c.alias? with
     | none => []
     | some a => ':' :: (a ++ (match c.type? with | none => [] | some t => ':' :: t)))

/-- The full placeholder text `%\x7b name \x7d` (the `to_replace` string). -/
def phOf (c : GrokCaps) : Str := '%' :: lbrace :: (nameOf c ++ [rbrace])

/-- `haystack.matches(p).count() > 0`: does `p` occur as a substring? -/
def hasOccur : Str → Str → Bool
  | s@(_ :: t), p => p.isPrefixOf s || hasOccur t p
  | [], p => p.isEmpty

/-- `haystack.replacen(p, r, 1)`: replace the first occurrence of `p` by `r`
(identity when there is no occurrence). -/
def replaceFirst : Str → Str → Str → Str
  | s, p, r =>
    if p.isPrefixOf s then r ++ s.drop p.length
    else
      match s with
      | [] => []
      | c :: t => c :: replaceFirst t p r

/-- Decimal digits of `n`, most significant first, by fueled division. -/
def natDigitsAux : Nat → Nat → Str
  | 0, _ => []
  | fuel + 1, n =>
    if n = 0 then [] else natDigitsAux fuel (n / 10) ++ [Nat.digitChar (n % 10)]

/-- Decimal rendering of `n` (Rust `format!` of a `usize`). -/
def natDigits (n : Nat) : Str := if n = 0 then ['0'] else natDigitsAux (n + 1) n

/-- The generated capture name `name<index>` (Rust `format!("name", index)`
concatenation). -/
def genName (i : Nat) : Str := "name".data ++ natDigits i

/-- Numeric value of a digit string (used to relate renderings back to numbers,
and as the digit accumulator of the numeric parsers). -/
def decodeDigits (s : Str) : Nat := s.foldl (fun a c => a * 10 + (c.toNat - 48)) 0

/-- `(?<newName>fragment)`: the named capturing group substituted for a
placeholder occurrence. -/
def namedGroup (n body : Str) : Str :=
  '(' :: '?' :: '<' :: (n ++ '>' :: (body ++ [')']))

/-- `(?:fragment)`: the non-capturing group substituted when the placeholder has
no alias and `named_capture_only` is set. -/
def ncGroup (body : Str) : Str := '(' :: '?' :: ':' :: (body ++ [')'])

/-- Alias map: generated capture name to `(external name, optional type tag)`. -/
abbrev AliasMap := List (Str × (Str × Option Str))

/-- The mutable state of `Grok::compile`'s expansion: the working text, the alias
map and the generated-name counter. -/
structure ExpandState where
  haystack : Str
  aliasMap : AliasMap
  index : Nat
  deriving DecidableEq, Repr

/-- Compile-time errors of `Grok::compile` (the Rust code reports them as
strings; the constructors carry the same information). -/
inductive GrokErr where
  /-- `max recursion 1024 reached` -/
  | recursionLimit
  /-- `pattern: <name>  not found` -/
  | unknownPattern (name : Str)
  /-- `Regex::new` failed on the expanded text, with the engine's message. -/
  | regexCompile (msg : Str)
  deriving DecidableEq, Repr

/-- `self.patterns.get(pattern).or(DEFAULT_PATTERNS.get(pattern))`: the caller
registry first, the default library only as fallback. -/
def resolveFrag (reg defs : List (Str × Str)) (p : Str) : Option Str :=
  (alGet reg p).orElse (fun _ => alGet defs p)

/-- The inner `while haystack.matches(&to_replace).count() > 0` loop of
`Grok::compile`: replace every remaining literal occurrence of the placeholder,
one at a time.  Each iteration consumes one unit of fuel; `none` means the fuel
ran out with occurrences still present (the source loop has no bound of its
own). -/
def innerLoop (nco : Bool) (caps : GrokCaps) (frag : Str) (toRepl : Str) :
    Nat → ExpandState → Option ExpandState
  | 0, st => if hasOccur st.haystack toRepl then none else some st
  | fuel + 1, st =>
    if hasOccur st.haystack toRepl then
      match caps.alias?, nco with
      | none, true =>
        innerLoop nco caps frag toRepl fuel
          { haystack := replaceFirst st.haystack toRepl (ncGroup frag)
            aliasMap := st.aliasMap
            index := st.index + 1 }
      | _, _ =>
        innerLoop nco caps frag toRepl fuel
          { haystack := replaceFirst st.haystack toRepl (namedGroup (genName st.index) frag)
            aliasMap := alInsert st.aliasMap (genName st.index)
              (caps.alias?.getD caps.pattern, caps.type?)
            index := st.index + 1 }
    else some st

/-- The outer `while let Some(caps) = GROK_REGEX.captures(&haystack)` loop of
`Grok::compile`.  `iterLeft` is the remaining recursion budget (`iter_left` in
the source, an `i64` counting down from 1024); the budget test happens after a
placeholder has been found, exactly as in the source.  `none` means the model's
fuel ran out before the source loop decided anything. -/
def expandLoop (reg defs : List (Str × Str)) (nco : Bool) :
    Nat → Int → ExpandState → Option (Except GrokErr ExpandState)
  | 0, _, _ => none
  | fuel + 1, iterLeft, st =>
    match grokFind st.haystack with
    | none => some (.ok st)
    | some caps =>
      if iterLeft ≤ 0 then some (.error .recursionLimit)
      else
        match resolveFrag reg defs caps.pattern with
        | none => some (.error (.unknownPattern caps.pattern))
        | some frag =>
          match innerLoop nco caps frag (phOf caps) fuel st with
          | none => none
          | some st' => expandLoop reg defs nco fuel (iterLeft - 1) st'

/-- `MAX_RECURSION` of the source. -/
def MAX_RECURSION : Int := 1024

/-- The expansion phase of `Grok::compile s nco`, from the initial state
(`haystack = s`, empty alias map, counter 0) with the full budget. -/
def compileExpand (reg defs : List (Str × Str)) (s : Str) (nco : Bool) (fuel : Nat) :
    Option (Except GrokErr ExpandState) :=
  expandLoop reg defs nco fuel MAX_RECURSION ⟨s, [], 0⟩

/-- `Grok::compile`: expansion followed by `Regex::new` on the expanded text.
The external engine's compilation is the parameter `regexOk` (`none` = the text
is a valid regex, `some msg` = compile error with message `msg`); on success the
compiled pattern is the pair of the final regex text and the alias map. -/
def compile (regexOk : Str → Option Str) (reg defs : List (Str × Str)) (s : Str)
    (nco : Bool) (fuel : Nat) : Option (Except GrokErr (Str × AliasMap)) :=
  match compileExpand reg defs s nco fuel with
  | none => none
  | some (.error e) => some (.error e)
  | some (.ok st) =>
    some (match regexOk st.haystack with
          | some msg => .error (.regexCompile msg)
          | none => .ok (st.haystack, st.aliasMap))

/-- The exact value denoted by an accepted `f64` literal: the exact rational of
a decimal literal, or a signed infinity, or NaN.  IEEE-754 rounding is the
engine's business and is abstracted away. -/
inductive FloatVal where
  | num (q : ℚ)
  | inf (neg : Bool)
  | nan
  deriving DecidableEq, Repr

/-- The `Value` enum of the source. -/
inductive Value where
  | Int (i : Int)
  | Float (f : FloatVal)
  | Bool (b : Bool)
  | String (s : Str)
  deriving DecidableEq, Repr

/-- Rust error displays used by the typed conversions. -/
def msgIntEmpty : Str := "cannot parse integer from empty string".data
def msgIntInvalid : Str := "invalid digit found in string".data
def msgIntPos : Str := "number too large to fit in target type".data
def msgIntNeg : Str := "number too small to fit in target type".data
def msgFloat : Str := "invalid float literal".data
def msgBool : Str := "provided string was not `true` or `false`".data

/-- Strip one optional leading sign; return whether it was `-` and the rest. -/
def signSplit (v : Str) : Bool × Str :=
  match v with
  | '+' :: r => (false, r)
  | '-' :: r => (true, r)
  | r => (false, r)

/-- The digits part of `str::parse::<i64>()` after sign stripping: one or more
ASCII digits whose value fits the 64-bit signed range. -/
def parseI64Core (sd : Bool × Str) : Except Str Int :=
  if sd.2 = [] then .error msgIntInvalid
  else if sd.2.all Char.isDigit then
    if sd.1 then
      if decodeDigits sd.2 ≤ 2 ^ 63 then .ok (-(decodeDigits sd.2 : Int))
      else .error msgIntNeg
    else
      if decodeDigits sd.2 < 2 ^ 63 then .ok ((decodeDigits sd.2 : Nat) : Int)
      else .error msgIntPos
  else .error msgIntInvalid

/-- `str::parse::<i64>()`: optional sign, one or more ASCII digits, value within
the 64-bit signed range; the error is the Rust error display. -/
def parseI64 (v : Str) : Except Str Int :=
  match v with
  | [] => .error msgIntEmpty
  | _ => parseI64Core (signSplit v)

/-- The exponent tail of a float literal: `Sign? Digit+`, to the end. -/
def parseExp (s : Str) : Option Int :=
  let sd : Bool × Str := signSplit s
  if sd.2 = [] then none
  else if sd.2.all Char.isDigit then
    some (if sd.1 then -(decodeDigits sd.2 : Int) else (decodeDigits sd.2 : Int))
  else none

/-- The exact rational value of a decimal float literal with integer part `ip`,
fraction part `fp`, exponent `e` and sign `neg`. -/
def mkNum (neg : Bool) (ip fp : Str) (e : Int) : ℚ :=
  let q : ℚ := (decodeDigits (ip ++ fp) : ℚ) * (10 : ℚ) ^ (e - (fp.length : Int))
  if neg then -q else q

/-- The grammar of `str::parse::<f64>()` (Rust's documented EBNF):
`Sign? ( 'inf' | 'infinity' | 'nan' | Number )` with the words matched
case-insensitively, `Number ::= (Digit+ | Digit+ '.' Digit* | Digit* '.' Digit+) Exp?`
and `Exp ::= ('e'|'E') Sign? Digit+`, covering the whole string. -/
def parseF64 (v : Str) : Option FloatVal :=
  let sd : Bool × Str := signSplit v
  let low := sd.2.map Char.toLower
  if low = "inf".data || low = "infinity".data then some (.inf sd.1)
  else if low = "nan".data then some .nan
  else
    let ip := sd.2.takeWhile Char.isDigit
    match sd.2.dropWhile Char.isDigit with
    | [] => if ip = [] then none else some (.num (mkNum sd.1 ip [] 0))
    | '.' :: r2 =>
      let fp := r2.takeWhile Char.isDigit
      if ip = [] && fp = [] then none
      else
        match r2.dropWhile Char.isDigit with
        | [] => some (.num (mkNum sd.1 ip fp 0))
        | 'e' :: r4 => (parseExp r4).map (fun e => .num (mkNum sd.1 ip fp e))
        | 'E' :: r4 => (parseExp r4).map (fun e => .num (mkNum sd.1 ip fp e))
        | _ => none
    | 'e' :: r4 => if ip = [] then none else (parseExp r4).map (fun e => .num (mkNum sd.1 ip [] e))
    | 'E' :: r4 => if ip = [] then none else (parseExp r4).map (fun e => .num (mkNum sd.1 ip [] e))
    | _ => none

/-- `str::parse::<bool>()`: exactly the literals `true` and `false`. -/
def parseBoolR (v : Str) : Except Str Bool :=
  if v = "true".data then .ok true
  else if v = "false".data then .ok false
  else .error msgBool

/-- The typed conversion of `Pattern::parse`: dispatch on the type tag exactly as
the source `match type_.as_str()` does, wrapping failures as
`format!("<error>: <value>")`. -/
def convert (t? : Option Str) (v : Str) : Except Str Value :=
  match t? with
  | some t =>
    if t = tyInt then
      match parseI64 v with
      | .ok k => .ok (.Int k)
      | .error e => .error (e ++ ':' :: ' ' :: v)
    else if t = tyFloat then
      match parseF64 v with
      | some f => .ok (.Float f)
      | none => .error (msgFloat ++ ':' :: ' ' :: v)
    else if t = tyBool || t = tyBoolean then
      match parseBoolR v with
      | .ok b => .ok (.Bool b)
      | .error e => .error (e ++ ':' :: ' ' :: v)
    else .ok (.String v)
  | none => .ok (.String v)

/-- The loop of `Pattern::parse` over the regex's capture names (in order of
appearance in the regex): for every participating capture, convert per the alias
map (external name and type tag) or insert the raw substring under the native
name; a conversion failure aborts the whole call. -/
def parseLoop (am : AliasMap) (caps : List (Str × Str)) :
    List Str → List (Str × Value) → Except Str (List (Str × Value))
  | [], m => .ok m
  | n :: rest, m =>
    match alGet caps n with
    | none => parseLoop am caps rest m
    | some v =>
      match alGet am n with
      | some at_ =>
        match convert at_.2 v with
        | .ok val => parseLoop am caps rest (alInsert m at_.1 val)
        | .error e => .error e
      | none => parseLoop am caps rest (alInsert m n (.String v))

/-- `Pattern::parse`.  The engine's side is parameterised: `names` is
`regex.capture_names().flatten()` (the named groups of the compiled regex, in
order of appearance) and `capsOpt` is the first match (`none` when the regex
matches nowhere; otherwise the participating groups with their substrings). -/
def parse (names : List Str) (am : AliasMap) (capsOpt : Option (List (Str × Str))) :
    Except Str (List (Str × Value)) :=
  match capsOpt with
  | none => .ok []
  | some caps => parseLoop am caps names []

/-- The external output key a capture name `n` contributes to: its alias-map
external name if it has an entry, else `n` itself. -/
def outKey (am : AliasMap) (n : Str) : Str :=
  match alGet am n with
  | some p => p.1
  | none => n

/-- No `%` character occurs in `s` (so no placeholder can start inside `s`). -/
abbrev noPct (s : Str) : Prop := ∀ c ∈ s, c ≠ '%'

/-- A character that can appear nowhere inside a placeholder match: not an
alias/word character, not `:`, not a brace, not `%`. -/
def isDead (c : Char) : Bool :=
  !(isAliasChar c) && !(c = ':') && !(c = rbrace) && !(c = '%') && !(c = lbrace)

/-- The placeholder text `%\x7bF\x7d` for a bare fragment name `F`. -/
def phStr (F : Str) : Str := '%' :: lbrace :: (F ++ [rbrace])

/-! ### Basic bridges -/

theorem prefOf_iff {p s : Str} : p.isPrefixOf s = true ↔ p <+: s :=
  List.isPrefixOf_iff_prefix

theorem nilPref {l : Str} : [] <+: l := List.nil_prefix

theorem prefTotal {p q l : Str} (h1 : p <+: l) (h2 : q <+: l) : p <+: q ∨ q <+: p :=
  List.prefix_or_prefix_of_prefix h1 h2

theorem beqStr_true {a b : Str} (h : a = b) : (a == b) = true := by
  exact beq_iff_eq.2 h

theorem beqStr_false {a b : Str} (h : ¬a = b) : (a == b) = false := by
  exact beq_eq_false_iff_ne.2 h

/-! ### Association-list lemmas -/

theorem alGet_nil {α : Type} (k : Str) : alGet ([] : List (Str × α)) k = none := rfl

theorem alGet_cons {α : Type} (p : Str × α) (m : List (Str × α)) (k : Str) :
    alGet (p :: m) k = if p.1 = k then some p.2 else alGet m k := by
  by_cases h : p.1 = k
  · simp [alGet, List.find?, beqStr_true h, h]
  · simp [alGet, List.find?, beqStr_false h, h]

theorem alInsert_cons_eq {α : Type} (p : Str × α) (m : List (Str × α)) (k : Str) (v : α)
    (h : p.1 = k) : alInsert (p :: m) k v = alInsert m k v := by
  simp [alInsert, List.filter, beqStr_true h]

theorem alInsert_cons_ne {α : Type} (p : Str × α) (m : List (Str × α)) (k : Str) (v : α)
    (h : ¬p.1 = k) : alInsert (p :: m) k v = p :: alInsert m k v := by
  simp [alInsert, List.filter, beqStr_false h]

theorem alGet_alInsert_self {α : Type} (m : List (Str × α)) (k : Str) (v : α) :
    alGet (alInsert m k v) k = some v := by
  induction m with
  | nil => simp [alGet, alInsert, List.find?, beqStr_true rfl]
  | cons p m ih =>
    by_cases h : p.1 = k
    · rw [alInsert_cons_eq p m k v h, ih]
    · rw [alInsert_cons_ne p m k v h, alGet_cons, if_neg h, ih]

theorem alGet_alInsert_ne {α : Type} (m : List (Str × α)) (k k' : Str) (v : α)
    (h : k' ≠ k) : alGet (alInsert m k v) k' = alGet m k' := by
  induction m with
  | nil =>
    rw [show alInsert ([] : List (Str × α)) k v = [(k, v)] from rfl, alGet_cons,
      if_neg (fun hh => h hh.symm)]
  | cons p m ih =>
    by_cases hp : p.1 = k
    · rw [alInsert_cons_eq p m k v hp, ih, alGet_cons, if_neg (by rw [hp]; exact fun hh => h hh.symm)]
    · rw [alInsert_cons_ne p m k v hp, alGet_cons, alGet_cons, ih]

theorem alGet_mem_keys {α : Type} {m : List (Str × α)} {k : Str} {v : α}
    (h : alGet m k = some v) : k ∈ m.map Prod.fst := by
  induction m with
  | nil =>
    rw [alGet_nil] at h
    exact Option.noConfusion h
  | cons p m ih =>
    rw [alGet_cons] at h
    by_cases hp : p.1 = k
    · rw [List.map_cons, ← hp]
      exact List.mem_cons_self _ _
    · rw [if_neg hp] at h
      rw [List.map_cons]
      exact List.mem_cons_of_mem _ (ih h)

theorem alGet_not_mem_keys {α : Type} {m : List (Str × α)} {k : Str}
    (h : k ∉ m.map Prod.fst) : alGet m k = none := by
  induction m with
  | nil => rfl
  | cons p m ih =>
    simp only [List.map_cons, List.mem_cons] at h
    push_neg at h
    rw [alGet_cons, if_neg (fun hh => h.1 hh.symm), ih h.2]

theorem alInsert_of_not_mem {α : Type} {m : List (Str × α)} {k : Str} (v : α)
    (h : k ∉ m.map Prod.fst) : alInsert m k v = m ++ [(k, v)] := by
  induction m with
  | nil => rfl
  | cons p m ih =>
    simp only [List.map_cons, List.mem_cons] at h
    push_neg at h
    rw [alInsert_cons_ne p m k v (fun hh => h.1 hh.symm), ih h.2, List.cons_append]

theorem alInsert_keys_nodup {α : Type} {m : List (Str × α)} {k : Str} {v : α}
    (h : (m.map Prod.fst).Nodup) : ((alInsert m k v).map Prod.fst).Nodup := by
  induction m with
  | nil => simp [alInsert]
  | cons p m ih =>
    simp only [List.map_cons, List.nodup_cons] at h
    by_cases hp : p.1 = k
    · rw [alInsert_cons_eq p m k v hp]
      exact ih h.2
    · rw [alInsert_cons_ne p m k v hp]
      simp only [List.map_cons, List.nodup_cons]
      refine ⟨fun hmem => ?_, ih h.2⟩
      rcases List.mem_map.1 hmem with ⟨q, hq, hq1⟩
      rcases (by simpa [alInsert, List.mem_filter] using hq :
          (q ∈ m ∧ ¬(q.1 == k) = true) ∨ q = (k, v)) with ⟨hqm, _⟩ | hq'
      · exact h.1 (List.mem_map.2 ⟨q, hqm, hq1⟩)
      · subst hq'
        exact hp hq1.symm

/-! ### `hasOccur` and `replaceFirst` lemmas -/

theorem hasOccur_nil (p : Str) : hasOccur [] p = p.isEmpty := rfl

theorem hasOccur_cons (c : Char) (t p : Str) :
    hasOccur (c :: t) p = (p.isPrefixOf (c :: t) || hasOccur t p) := rfl

theorem hasOccur_iff {s p : Str} :
    hasOccur s p = true ↔ ∃ k, p.isPrefixOf (s.drop k) = true := by
  induction s with
  | nil =>
    rw [hasOccur_nil]
    constructor
    · intro h
      refine ⟨0, ?_⟩
      rw [List.isEmpty_iff] at h
      subst h
      exact prefOf_iff.2 nilPref
    · rintro ⟨k, hk⟩
      rw [List.drop_nil, prefOf_iff, List.prefix_nil] at hk
      simp [hk]
  | cons c t ih =>
    rw [hasOccur_cons, Bool.or_eq_true, ih]
    constructor
    · rintro (h | ⟨k, hk⟩)
      · exact ⟨0, h⟩
      · exact ⟨k + 1, by simpa using hk⟩
    · rintro ⟨k, hk⟩
      match k with
      | 0 => exact Or.inl (by simpa using hk)
      | k + 1 => exact Or.inr ⟨k, by simpa using hk⟩

theorem hasOccur_nilp (s : Str) : hasOccur s [] = true := by
  cases s with
  | nil => rfl
  | cons c t => rw [hasOccur_cons, prefOf_iff.2 nilPref, Bool.true_or]

theorem hasOccur_self_append (p t : Str) : hasOccur (p ++ t) p = true := by
  match p with
  | [] => simpa using hasOccur_nilp t
  | c :: p' =>
    rw [List.cons_append, hasOccur_cons,
      show (c :: p').isPrefixOf (c :: (p' ++ t)) = true from prefOf_iff.2 ⟨t, by simp⟩,
      Bool.true_or]

theorem hasOccur_mid (xs p ys : Str) : hasOccur (xs ++ (p ++ ys)) p = true := by
  induction xs with
  | nil => simpa using hasOccur_self_append p ys
  | cons c xs ih => rw [List.cons_append, hasOccur_cons, ih, Bool.or_true]

theorem hasOccur_mid' (xs p ys : Str) : hasOccur (xs ++ p ++ ys) p = true := by
  rw [List.append_assoc]
  exact hasOccur_mid xs p ys

theorem hasOccur_append_left {r p : Str} (z : Str) (h : hasOccur r p = true) :
    hasOccur (r ++ z) p = true := by
  rcases hasOccur_iff.1 h with ⟨k, hk⟩
  refine hasOccur_iff.2 ⟨k, ?_⟩
  rw [prefOf_iff] at hk ⊢
  calc p <+: r.drop k := hk
    _ <+: r.drop k ++ z.drop (k - r.length) := List.prefix_append _ _
    _ = (r ++ z).drop k := (List.drop_append_eq_append_drop).symm

theorem replaceFirst_eq (s p r : Str) : replaceFirst s p r =
    if p.isPrefixOf s then r ++ s.drop p.length
    else match s with | [] => [] | c :: t => c :: replaceFirst t p r := by
  rw [replaceFirst.eq_def]

theorem replaceFirst_head (p t r : Str) : replaceFirst (p ++ t) p r = r ++ t := by
  have hpre : p.isPrefixOf (p ++ t) = true := prefOf_iff.2 ⟨t, rfl⟩
  rw [replaceFirst_eq, if_pos hpre, List.drop_left]

theorem replaceFirst_cons_not (c : Char) (t p r : Str)
    (h : ¬p.isPrefixOf (c :: t) = true) :
    replaceFirst (c :: t) p r = c :: replaceFirst t p r := by
  rw [replaceFirst_eq, if_neg h]

theorem hasOccur_replaceFirst_self {s p r : Str} (hr : hasOccur r p = true)
    (hs : hasOccur s p = true) : hasOccur (replaceFirst s p r) p = true := by
  induction s with
  | nil =>
    rw [hasOccur_nil, List.isEmpty_iff] at hs
    subst hs
    rw [replaceFirst_eq, if_pos (prefOf_iff.2 nilPref)]
    exact hasOccur_append_left _ hr
  | cons c t ih =>
    by_cases hpre : p.isPrefixOf (c :: t) = true
    · rw [replaceFirst_eq, if_pos hpre]
      exact hasOccur_append_left _ hr
    · rw [replaceFirst_cons_not c t p r hpre]
      rw [hasOccur_cons, Bool.or_eq_true] at hs
      rcases hs with hs | hs
      · exact absurd hs hpre
      · rw [hasOccur_cons, ih hs, Bool.or_true]

/-! ### `matchAt` / `grokFind` basics -/

theorem matchAt_nil : matchAt [] = none := rfl

theorem matchAt_single (c : Char) : matchAt [c] = none := rfl

theorem matchAt_cons2 (a b : Char) (r : Str) :
    matchAt (a :: b :: r) = if a = '%' ∧ b = lbrace then matchBody r else none := rfl

theorem matchAt_cons_not_pct {c : Char} (s : Str) (h : c ≠ '%') :
    matchAt (c :: s) = none := by
  match s with
  | [] => exact matchAt_single c
  | b :: r => rw [matchAt_cons2, if_neg (fun hc => h hc.1)]

theorem grokFind_nil : grokFind [] = none := rfl

theorem grokFind_cons (c : Char) (t : Str) :
    grokFind (c :: t) = match matchAt (c :: t) with
      | some cp => some cp
      | none => grokFind t := rfl

theorem grokFind_cons_not_pct {c : Char} (t : Str) (h : c ≠ '%') :
    grokFind (c :: t) = grokFind t := by
  rw [grokFind_cons, matchAt_cons_not_pct t h]

theorem grokFind_append_noPct {pre : Str} (s : Str) (h : noPct pre) :
    grokFind (pre ++ s) = grokFind s := by
  induction pre with
  | nil => rfl
  | cons c t ih =>
    rw [List.cons_append, grokFind_cons_not_pct _ (h c (List.mem_cons_self _ _))]
    exact ih (fun x hx => h x (List.mem_cons_of_mem _ hx))

theorem grokFind_noPct {s : Str} (h : noPct s) : grokFind s = none := by
  have := grokFind_append_noPct [] h
  rwa [List.append_nil, grokFind_nil] at this

theorem grokFind_none_matchAt {s : Str} (h : grokFind s = none) (k : Nat) :
    matchAt (s.drop k) = none := by
  induction s generalizing k with
  | nil => simpa using matchAt_nil
  | cons c t ih =>
    rw [grokFind_cons] at h
    match hm : matchAt (c :: t) with
    | some cp => rw [hm] at h; exact Option.noConfusion h
    | none =>
      rw [hm] at h
      match k with
      | 0 => simpa using hm
      | k + 1 => simpa using ih h k

theorem not_occur_of_none {s p : Str} (hs : grokFind s = none)
    (hp : ∀ u, matchAt (p ++ u) ≠ none) : hasOccur s p = false := by
  by_contra h
  rw [Bool.not_eq_false] at h
  rcases hasOccur_iff.1 h with ⟨k, hk⟩
  rcases prefOf_iff.1 hk with ⟨u, hu⟩
  exact hp u (by rw [hu]; exact grokFind_none_matchAt hs k)

theorem hasOccur_append_noPct {pre : Str} (s p : Str) (hpre : noPct pre)
    (hp : ∃ p', p = '%' :: p') : hasOccur (pre ++ s) p = hasOccur s p := by
  induction pre with
  | nil => rfl
  | cons c t ih =>
    rcases hp with ⟨p', rfl⟩
    rw [List.cons_append, hasOccur_cons,
      show ('%' :: p').isPrefixOf (c :: (t ++ s)) = false by
        rw [← Bool.not_eq_true, prefOf_iff]
        intro hcon
        rcases hcon with ⟨u, hu⟩
        exact hpre c (List.mem_cons_self _ _) (List.cons.inj hu).1.symm,
      Bool.false_or]
    exact ih (fun x hx => hpre x (List.mem_cons_of_mem _ hx))

theorem hasOccur_noPct {s p : Str} (hs : noPct s) (hp : ∃ p', p = '%' :: p') :
    hasOccur s p = false := by
  have := hasOccur_append_noPct [] p hs hp
  rcases hp with ⟨p', rfl⟩
  rwa [List.append_nil, hasOccur_nil] at this

theorem replaceFirst_append_noPct {pre : Str} (s p r : Str) (hpre : noPct pre)
    (hp : ∃ p', p = '%' :: p') :
    replaceFirst (pre ++ s) p r = pre ++ replaceFirst s p r := by
  induction pre with
  | nil => rfl
  | cons c t ih =>
    rcases hp with ⟨p', rfl⟩
    rw [List.cons_append, replaceFirst_cons_not _ _ _ _ (by
      rw [prefOf_iff]
      intro hcon
      rcases hcon with ⟨u, hu⟩
      exact hpre c (List.mem_cons_self _ _) (List.cons.inj hu).1.symm),
      ih (fun x hx => hpre x (List.mem_cons_of_mem _ hx)), List.cons_append]

/-! ### takeWhile / dropWhile over appends -/

theorem takeWhile_append_neg {P : Char → Bool} {c : Char} (r t : Str) (h : P c = false) :
    (r ++ c :: t).takeWhile P = r.takeWhile P := by
  induction r with
  | nil => simp [List.takeWhile, h]
  | cons x r ih =>
    rw [List.cons_append, List.takeWhile, List.takeWhile]
    cases hx : P x
    · rfl
    · rw [ih]

theorem dropWhile_append_neg {P : Char → Bool} {c : Char} (r t : Str) (h : P c = false) :
    (r ++ c :: t).dropWhile P = r.dropWhile P ++ c :: t := by
  induction r with
  | nil => simp [List.dropWhile, h]
  | cons x r ih =>
    rw [List.cons_append, List.dropWhile, List.dropWhile]
    cases hx : P x
    · rfl
    · rw [ih]

theorem takeWhile_all {P : Char → Bool} {r : Str} (h : ∀ x ∈ r, P x = true) :
    r.takeWhile P = r := by
  induction r with
  | nil => rfl
  | cons x r ih =>
    rw [List.takeWhile, h x (List.mem_cons_self _ _)]
    simp only []
    rw [ih (fun y hy => h y (List.mem_cons_of_mem _ hy))]

theorem dropWhile_all {P : Char → Bool} {r : Str} (h : ∀ x ∈ r, P x = true) :
    r.dropWhile P = [] := by
  induction r with
  | nil => rfl
  | cons x r ih =>
    rw [List.dropWhile, h x (List.mem_cons_self _ _)]
    exact ih (fun y hy => h y (List.mem_cons_of_mem _ hy))


/-! ### `matchAt` on a placeholder -/

theorem rbrace_not_word : isWordChar rbrace = false := by decide

theorem rbrace_not_alias : isAliasChar rbrace = false := by decide

theorem matchAt_ph {F : Str} (rest : Str) (hne : F ≠ [])
    (hw : ∀ c ∈ F, isWordChar c = true) :
    matchAt ('%' :: lbrace :: (F ++ rbrace :: rest)) = some ⟨F, none, none⟩ := by
  rw [matchAt_cons2, if_pos ⟨rfl, rfl⟩]
  simp only [matchBody, takeWhile_append_neg _ _ rbrace_not_word, takeWhile_all hw,
    dropWhile_append_neg _ _ rbrace_not_word, dropWhile_all hw, List.nil_append]
  rw [if_neg (by simpa [List.isEmpty_iff] using hne)]
  rw [if_neg (show ¬(rbrace = ':') by decide)]
  simp

theorem phStr_cons (F rest : Str) :
    phStr F ++ rest = '%' :: lbrace :: (F ++ rbrace :: rest) := by
  show ('%' :: lbrace :: (F ++ [rbrace])) ++ rest = _
  simp

theorem matchAt_phStr_append {F : Str} (u : Str) (hne : F ≠ [])
    (hw : ∀ c ∈ F, isWordChar c = true) :
    matchAt (phStr F ++ u) = some ⟨F, none, none⟩ := by
  rw [phStr_cons]
  exact matchAt_ph u hne hw

/-! ### Dead characters: characters that cannot occur inside a placeholder -/

theorem isDead_not_alias {c : Char} (hc : isDead c = true) : isAliasChar c = false := by
  simp only [isDead, Bool.and_eq_true, Bool.not_eq_true'] at hc
  exact hc.1.1.1.1

theorem isDead_not_word {c : Char} (hc : isDead c = true) : isWordChar c = false := by
  have := isDead_not_alias hc
  simp only [isAliasChar, Bool.or_eq_false_iff] at this
  exact this.1.1.1

theorem isDead_ne_colon {c : Char} (hc : isDead c = true) : ¬(c = ':') := by
  simp only [isDead, Bool.and_eq_true, Bool.not_eq_true', decide_eq_false_iff_not] at hc
  exact hc.1.1.1.2

theorem isDead_ne_rbrace {c : Char} (hc : isDead c = true) : ¬(c = rbrace) := by
  simp only [isDead, Bool.and_eq_true, Bool.not_eq_true', decide_eq_false_iff_not] at hc
  exact hc.1.1.2

theorem isDead_ne_pct {c : Char} (hc : isDead c = true) : ¬(c = '%') := by
  simp only [isDead, Bool.and_eq_true, Bool.not_eq_true', decide_eq_false_iff_not] at hc
  exact hc.1.2

theorem isDead_ne_lbrace {c : Char} (hc : isDead c = true) : ¬(c = lbrace) := by
  simp only [isDead, Bool.and_eq_true, Bool.not_eq_true', decide_eq_false_iff_not] at hc
  exact hc.2

theorem pref_of_append_dead {pat : Str} {c : Char} {r t : Str}
    (hpat : ∀ x ∈ pat, isDead x = false) (hc : isDead c = true)
    (h : pat <+: r ++ c :: t) : pat <+: r := by
  induction pat generalizing r with
  | nil => exact nilPref
  | cons x p' ih =>
    cases r with
    | nil =>
      rcases h with ⟨u, hu⟩
      rw [List.nil_append, List.cons_append] at hu
      have hx : x = c := (List.cons.inj hu.symm).1.symm
      have := hpat x (List.mem_cons_self _ _)
      rw [hx, hc] at this
      exact Bool.noConfusion this
    | cons y r' =>
      rcases h with ⟨u, hu⟩
      rw [List.cons_append, List.cons_append] at hu
      have h1 : x = y := (List.cons.inj hu).1
      have h2 : p' <+: r' ++ c :: t := ⟨u, (List.cons.inj hu).2⟩
      rw [h1]
      exact List.cons_prefix_cons.2
        ⟨rfl, ih (fun z hz => hpat z (List.mem_cons_of_mem _ hz)) h2⟩

theorem pref_append_dead (pat : Str) {c : Char} (r t : Str)
    (hpat : ∀ x ∈ pat, isDead x = false) (hc : isDead c = true) :
    pat.isPrefixOf (r ++ c :: t) = pat.isPrefixOf r := by
  by_cases hp : pat <+: r
  · rw [prefOf_iff.2 hp, prefOf_iff.2 (hp.trans ⟨c :: t, rfl⟩)]
  · have hl : List.isPrefixOf pat (r ++ c :: t) = false := by
      rw [← Bool.not_eq_true]
      intro hcon
      exact hp (pref_of_append_dead hpat hc (prefOf_iff.1 hcon))
    have hr : List.isPrefixOf pat r = false := by
      rw [← Bool.not_eq_true]
      intro hcon
      exact hp (prefOf_iff.1 hcon)
    rw [hl, hr]

theorem matchTypeBrace_append_dead {c : Char} (r t : Str) (hc : isDead c = true) :
    matchTypeBrace (r ++ c :: t) = matchTypeBrace r := by
  simp only [matchTypeBrace,
    pref_append_dead (tyInt ++ [rbrace]) r t (by decide) hc,
    pref_append_dead (tyFloat ++ [rbrace]) r t (by decide) hc,
    pref_append_dead (tyBoolean ++ [rbrace]) r t (by decide) hc,
    pref_append_dead (tyBool ++ [rbrace]) r t (by decide) hc]

theorem matchAliasPart_append_dead (p : Str) {c : Char} (r2 t : Str) (hc : isDead c = true) :
    matchAliasPart p (r2 ++ c :: t) = matchAliasPart p r2 := by
  simp only [matchAliasPart, takeWhile_append_neg _ _ (isDead_not_alias hc),
    dropWhile_append_neg _ _ (isDead_not_alias hc)]
  by_cases he : (r2.takeWhile isAliasChar).isEmpty
  · rw [if_pos he, if_pos he]
  · rw [if_neg he, if_neg he]
    cases hdr : r2.dropWhile isAliasChar with
    | nil =>
      simp only [List.nil_append]
      rw [if_neg (isDead_ne_colon hc), if_neg (isDead_ne_rbrace hc)]
    | cons d r4 =>
      simp only [List.cons_append]
      by_cases hd : d = ':'
      · rw [if_pos hd, if_pos hd, matchTypeBrace_append_dead r4 t hc]
      · rw [if_neg hd, if_neg hd]

theorem matchBody_append_dead {c : Char} (r t : Str) (hc : isDead c = true) :
    matchBody (r ++ c :: t) = matchBody r := by
  simp only [matchBody, takeWhile_append_neg _ _ (isDead_not_word hc),
    dropWhile_append_neg _ _ (isDead_not_word hc)]
  by_cases he : (r.takeWhile isWordChar).isEmpty
  · rw [if_pos he, if_pos he]
  · rw [if_neg he, if_neg he]
    cases hdr : r.dropWhile isWordChar with
    | nil =>
      simp only [List.nil_append]
      rw [if_neg (isDead_ne_colon hc), if_neg (isDead_ne_rbrace hc)]
    | cons d r2 =>
      simp only [List.cons_append]
      by_cases hd : d = ':'
      · rw [if_pos hd, if_pos hd, matchAliasPart_append_dead _ r2 t hc]
      · rw [if_neg hd, if_neg hd]

theorem matchAt_append_dead {c : Char} (s t : Str) (hc : isDead c = true) :
    matchAt (s ++ c :: t) = matchAt s := by
  match s with
  | [] =>
    rw [List.nil_append, matchAt_cons_not_pct t (fun h => isDead_ne_pct hc h), matchAt_nil]
  | [a] =>
    rw [List.cons_append, List.nil_append, matchAt_cons2, matchAt_single,
      if_neg (fun hcon => isDead_ne_lbrace hc hcon.2)]
  | a :: b :: r =>
    rw [List.cons_append, List.cons_append, matchAt_cons2, matchAt_cons2]
    by_cases hab : a = '%' ∧ b = lbrace
    · rw [if_pos hab, if_pos hab, matchBody_append_dead r t hc]
    · rw [if_neg hab, if_neg hab]

theorem grokFind_append_dead {s t : Str} {c : Char} (hs : grokFind s = none)
    (hc : isDead c = true) : grokFind (s ++ c :: t) = grokFind t := by
  induction s with
  | nil =>
    rw [List.nil_append, grokFind_cons_not_pct t (fun h => isDead_ne_pct hc h)]
  | cons x s' ih =>
    rw [grokFind_cons] at hs
    have hx : matchAt (x :: s') = none := by
      match hm : matchAt (x :: s') with
      | some cp => rw [hm] at hs; exact Option.noConfusion hs
      | none => rfl
    rw [hx] at hs
    rw [List.cons_append, grokFind_cons,
      show matchAt (x :: (s' ++ c :: t)) = none by
        rw [show x :: (s' ++ c :: t) = (x :: s') ++ c :: t from rfl,
          matchAt_append_dead _ t hc, hx]]
    exact ih hs

theorem not_occur_append_deadhead {s p : Str} {c : Char} (t : Str)
    (hs : grokFind s = none) (hp : ∀ u, matchAt (p ++ u) ≠ none)
    (hc : isDead c = true) (hpchars : ∀ x ∈ p, isDead x = false)
    (ht : hasOccur (c :: t) p = false) : hasOccur (s ++ c :: t) p = false := by
  by_contra hcon
  rw [Bool.not_eq_false] at hcon
  rcases hasOccur_iff.1 hcon with ⟨k, hk⟩
  rcases Nat.lt_or_ge k (s.length + 1) with hlt | hge
  · rw [List.drop_append_eq_append_drop] at hk
    have hk' : p <+: s.drop k ++ c :: t := by
      rcases Nat.eq_or_lt_of_le (Nat.le_of_lt_succ hlt) with heq | hlt'
      · rw [heq, List.drop_length] at hk ⊢
        simpa using prefOf_iff.1 hk
      · rwa [show (c :: t).drop (k - s.length) = c :: t by
          rw [Nat.sub_eq_zero_of_le (Nat.le_of_lt hlt')]; rfl, prefOf_iff] at hk
    have hps : p <+: s.drop k := pref_of_append_dead hpchars hc hk'
    rcases hps with ⟨u, hu⟩
    exact hp u (by rw [hu]; exact grokFind_none_matchAt hs k)
  · have : hasOccur (c :: t) p = true := by
      refine hasOccur_iff.2 ⟨k - s.length, ?_⟩
      rw [List.drop_append_eq_append_drop, List.drop_of_length_le
        (by omega : s.length ≤ k), List.nil_append] at hk
      exact hk
    rw [this] at ht
    exact Bool.noConfusion ht

/-! ### Decimal renderings and generated names -/

theorem digitChar_val : ∀ d, d < 10 → ((Nat.digitChar d).toNat - 48) = d := by decide

theorem digitChar_isDigit : ∀ d, d < 10 → (Nat.digitChar d).isDigit = true := by decide

theorem decodeAux {fuel n : Nat} (acc : Nat) (h : n < fuel) :
    (natDigitsAux fuel n).foldl (fun a c => a * 10 + (c.toNat - 48)) acc =
      acc * 10 ^ (natDigitsAux fuel n).length + n := by
  induction fuel generalizing n acc with
  | zero => exact absurd h (Nat.not_lt_zero n)
  | succ fuel ih =>
    by_cases hn : n = 0
    · subst hn
      rw [natDigitsAux, if_pos rfl]
      simp
    · rw [natDigitsAux, if_neg hn]
      have hdiv : n / 10 < fuel := by
        have h1 : n / 10 < n := Nat.div_lt_self (Nat.pos_of_ne_zero hn) (by norm_num)
        omega
      rw [List.foldl_append, ih acc hdiv]
      simp only [List.foldl_cons, List.foldl_nil, List.length_append, List.length_cons,
        List.length_nil]
      rw [digitChar_val (n % 10) (Nat.mod_lt n (by norm_num))]
      have hmod : n / 10 * 10 + n % 10 = n := by omega
      rw [Nat.add_mul, pow_succ]
      ring_nf
      omega

theorem decode_natDigits (n : Nat) : decodeDigits (natDigits n) = n := by
  by_cases hn : n = 0
  · subst hn; rfl
  · rw [natDigits, if_neg hn]
    have := @decodeAux (n + 1) n 0 (Nat.lt_succ_self n)
    rw [decodeDigits, this, Nat.zero_mul, Nat.zero_add]

theorem natDigits_inj : Function.Injective natDigits := by
  intro a b h
  have := decode_natDigits a
  rw [h, decode_natDigits b] at this
  exact this.symm

theorem genName_inj : Function.Injective genName := by
  intro a b h
  exact natDigits_inj (List.append_cancel_left h)

theorem natDigitsAux_digits {fuel n : Nat} {c : Char} (h : c ∈ natDigitsAux fuel n) :
    c.isDigit = true := by
  induction fuel generalizing n with
  | zero => exact absurd h (List.not_mem_nil c)
  | succ fuel ih =>
    rw [natDigitsAux] at h
    by_cases hn : n = 0
    · rw [if_pos hn] at h
      exact absurd h (List.not_mem_nil c)
    · rw [if_neg hn] at h
      rcases List.mem_append.1 h with h' | h'
      · exact ih h'
      · rw [List.mem_singleton] at h'
        subst h'
        exact digitChar_isDigit _ (Nat.mod_lt n (by norm_num))

theorem natDigits_digits {n : Nat} {c : Char} (h : c ∈ natDigits n) : c.isDigit = true := by
  rw [natDigits] at h
  by_cases hn : n = 0
  · rw [if_pos hn, List.mem_singleton] at h
    subst h
    decide
  · rw [if_neg hn] at h
    exact natDigitsAux_digits h

theorem genName_noPct (i : Nat) : noPct (genName i) := by
  intro c hc
  rcases List.mem_append.1 hc with h' | h'
  · intro he
    subst he
    simp at h'
  · intro he
    have := natDigits_digits h'
    rw [he] at this
    exact absurd this (by decide)

/-! ### `parseLoop` lemmas -/

theorem parseLoop_skip_step {am : AliasMap} {caps : List (Str × Str)} {n : Str}
    (rest : List Str) (m : List (Str × Value)) (hcap : alGet caps n = none) :
    parseLoop am caps (n :: rest) m = parseLoop am caps rest m := by
  simp only [parseLoop, hcap]

theorem parseLoop_alias_ok_step {am : AliasMap} {caps : List (Str × Str)} {n v : Str}
    {at_ : Str × Option Str} {val : Value} (rest : List Str) (m : List (Str × Value))
    (hcap : alGet caps n = some v) (ham : alGet am n = some at_)
    (hconv : convert at_.2 v = .ok val) :
    parseLoop am caps (n :: rest) m = parseLoop am caps rest (alInsert m at_.1 val) := by
  simp only [parseLoop, hcap, ham, hconv]

theorem parseLoop_alias_err_step {am : AliasMap} {caps : List (Str × Str)} {n v : Str}
    {at_ : Str × Option Str} {e : Str} (rest : List Str) (m : List (Str × Value))
    (hcap : alGet caps n = some v) (ham : alGet am n = some at_)
    (hconv : convert at_.2 v = .error e) :
    parseLoop am caps (n :: rest) m = .error e := by
  simp only [parseLoop, hcap, ham, hconv]

theorem parseLoop_native_step {am : AliasMap} {caps : List (Str × Str)} {n v : Str}
    (rest : List Str) (m : List (Str × Value))
    (hcap : alGet caps n = some v) (ham : alGet am n = none) :
    parseLoop am caps (n :: rest) m =
      parseLoop am caps rest (alInsert m n (.String v)) := by
  simp only [parseLoop, hcap, ham]

theorem parseLoop_writer_step {am : AliasMap} {caps : List (Str × Str)} {n x v : Str}
    (rest : List Str) (m : List (Str × Value))
    (hcap : alGet caps n = some v) (ham : alGet am n = some (x, none)) :
    parseLoop am caps (n :: rest) m =
      parseLoop am caps rest (alInsert m x (.String v)) := by
  exact parseLoop_alias_ok_step rest m hcap ham rfl

theorem parseLoop_append (am : AliasMap) (caps : List (Str × Str)) (u w : List Str)
    (m : List (Str × Value)) :
    parseLoop am caps (u ++ w) m =
      match parseLoop am caps u m with
      | .ok m' => parseLoop am caps w m'
      | .error e => .error e := by
  induction u generalizing m with
  | nil => rfl
  | cons n u ih =>
    rw [List.cons_append]
    cases hn : alGet caps n with
    | none => rw [parseLoop_skip_step _ m hn, parseLoop_skip_step _ m hn, ih m]
    | some v =>
      cases ha : alGet am n with
      | some at_ =>
        cases hc : convert at_.2 v with
        | ok val =>
          rw [parseLoop_alias_ok_step _ m hn ha hc, parseLoop_alias_ok_step _ m hn ha hc, ih _]
        | error e =>
          rw [parseLoop_alias_err_step _ m hn ha hc, parseLoop_alias_err_step _ m hn ha hc]
      | none =>
        rw [parseLoop_native_step _ m hn ha, parseLoop_native_step _ m hn ha, ih _]

theorem parseLoop_untouched {am : AliasMap} {caps : List (Str × Str)} {x : Str}
    {ns : List Str} {m m' : List (Str × Value)}
    (hw : ∀ n ∈ ns, outKey am n = x → alGet caps n = none)
    (h : parseLoop am caps ns m = .ok m') : alGet m' x = alGet m x := by
  induction ns generalizing m with
  | nil =>
    rw [parseLoop] at h
    cases h
    rfl
  | cons n ns ih =>
    have hw' := fun n' hn' => hw n' (List.mem_cons_of_mem _ hn')
    cases hn : alGet caps n with
    | none =>
      rw [parseLoop_skip_step _ m hn] at h
      exact ih hw' h
    | some v =>
      cases ha : alGet am n with
      | some at_ =>
        have hne : at_.1 ≠ x := by
          intro hx
          have hk : outKey am n = x := by simp only [outKey, ha]; exact hx
          have := hw n (List.mem_cons_self _ _) hk
          rw [hn] at this
          exact Option.noConfusion this
        cases hc : convert at_.2 v with
        | ok val =>
          rw [parseLoop_alias_ok_step _ m hn ha hc] at h
          rw [ih hw' h, alGet_alInsert_ne _ _ _ _ (fun hh => hne hh.symm)]
        | error e =>
          rw [parseLoop_alias_err_step _ m hn ha hc] at h
          exact Except.noConfusion h
      | none =>
        have hne : n ≠ x := by
          intro hx
          have hk : outKey am n = x := by simp only [outKey, ha]; exact hx
          have := hw n (List.mem_cons_self _ _) hk
          rw [hn] at this
          exact Option.noConfusion this
        rw [parseLoop_native_step _ m hn ha] at h
        rw [ih hw' h, alGet_alInsert_ne _ _ _ _ (fun hh => hne hh.symm)]

theorem parseLoop_untyped_ok {am : AliasMap} {caps : List (Str × Str)} {ns : List Str}
    (hty : ∀ n ∈ ns, ∀ p, alGet am n = some p → p.2 = none) (m : List (Str × Value)) :
    ∃ m', parseLoop am caps ns m = .ok m' := by
  induction ns generalizing m with
  | nil => exact ⟨m, rfl⟩
  | cons n ns ih =>
    have hty' := fun n' h' => hty n' (List.mem_cons_of_mem _ h')
    cases hn : alGet caps n with
    | none =>
      rw [parseLoop_skip_step _ m hn]
      exact ih hty' m
    | some v =>
      cases ha : alGet am n with
      | some at_ =>
        have h2 := hty n (List.mem_cons_self _ _) at_ ha
        rw [parseLoop_alias_ok_step _ m hn ha (by rw [h2]; rfl)]
        exact ih hty' _
      | none =>
        rw [parseLoop_native_step _ m hn ha]
        exact ih hty' _

theorem parseLoop_keys {am : AliasMap} {caps : List (Str × Str)} {ns : List Str}
    {m m' : List (Str × Value)} (h : parseLoop am caps ns m = .ok m') (k : Str)
    (hk : alGet m' k ≠ none) : alGet m k ≠ none ∨ ∃ n ∈ ns, outKey am n = k := by
  induction ns generalizing m with
  | nil =>
    rw [parseLoop] at h
    cases h
    exact Or.inl hk
  | cons n ns ih =>
    cases hn : alGet caps n with
    | none =>
      rw [parseLoop_skip_step _ m hn] at h
      rcases ih h with h' | ⟨n', hn', hk'⟩
      · exact Or.inl h'
      · exact Or.inr ⟨n', List.mem_cons_of_mem _ hn', hk'⟩
    | some v =>
      cases ha : alGet am n with
      | some at_ =>
        cases hc : convert at_.2 v with
        | ok val =>
          rw [parseLoop_alias_ok_step _ m hn ha hc] at h
          rcases ih h with h' | ⟨n', hn', hk'⟩
          · by_cases hke : at_.1 = k
            · exact Or.inr ⟨n, List.mem_cons_self _ _, by simp only [outKey, ha]; exact hke⟩
            · rw [alGet_alInsert_ne _ _ _ _ (fun hh => hke hh.symm)] at h'
              exact Or.inl h'
          · exact Or.inr ⟨n', List.mem_cons_of_mem _ hn', hk'⟩
        | error e =>
          rw [parseLoop_alias_err_step _ m hn ha hc] at h
          exact Except.noConfusion h
      | none =>
        rw [parseLoop_native_step _ m hn ha] at h
        rcases ih h with h' | ⟨n', hn', hk'⟩
        · by_cases hke : n = k
          · exact Or.inr ⟨n, List.mem_cons_self _ _, by simp only [outKey, ha]; exact hke⟩
          · rw [alGet_alInsert_ne _ _ _ _ (fun hh => hke hh.symm)] at h'
            exact Or.inl h'
        · exact Or.inr ⟨n', List.mem_cons_of_mem _ hn', hk'⟩

theorem parseLoop_err_of_bad {am : AliasMap} {caps : List (Str × Str)} {ns : List Str}
    {n a v : Str} {T : Option Str} {e0 : Str}
    (hn : n ∈ ns) (hcap : alGet caps n = some v) (ham : alGet am n = some (a, T))
    (hbad : convert T v = .error e0) (m : List (Str × Value)) :
    ∃ e, parseLoop am caps ns m = .error e := by
  induction ns generalizing m with
  | nil => exact absurd hn (List.not_mem_nil n)
  | cons n0 ns ih =>
    cases hn0 : alGet caps n0 with
    | none =>
      have hne : n ≠ n0 := by
        intro hh
        rw [hh, hn0] at hcap
        exact Option.noConfusion hcap
      rcases List.mem_cons.1 hn with hh | hh
      · exact absurd hh hne
      · rw [parseLoop_skip_step _ m hn0]
        exact ih hh m
    | some v0 =>
      cases ha0 : alGet am n0 with
      | some at0 =>
        cases hc0 : convert at0.2 v0 with
        | ok val =>
          rcases List.mem_cons.1 hn with hh | hh
          · subst hh
            rw [hn0] at hcap
            rw [ha0] at ham
            cases hcap
            cases ham
            rw [hc0] at hbad
            exact Except.noConfusion hbad
          · rw [parseLoop_alias_ok_step _ m hn0 ha0 hc0]
            exact ih hh _
        | error e =>
          exact ⟨e, parseLoop_alias_err_step _ m hn0 ha0 hc0⟩
      | none =>
        rcases List.mem_cons.1 hn with hh | hh
        · subst hh
          rw [ha0] at ham
          exact Option.noConfusion ham
        · rw [parseLoop_native_step _ m hn0 ha0]
          exact ih hh _

theorem parseLoop_keys_nodup {am : AliasMap} {caps : List (Str × Str)} {ns : List Str}
    {m m' : List (Str × Value)} (hm : (m.map Prod.fst).Nodup)
    (h : parseLoop am caps ns m = .ok m') : (m'.map Prod.fst).Nodup := by
  induction ns generalizing m with
  | nil =>
    rw [parseLoop] at h
    cases h
    exact hm
  | cons n ns ih =>
    cases hn : alGet caps n with
    | none =>
      rw [parseLoop_skip_step _ m hn] at h
      exact ih hm h
    | some v =>
      cases ha : alGet am n with
      | some at_ =>
        cases hc : convert at_.2 v with
        | ok val =>
          rw [parseLoop_alias_ok_step _ m hn ha hc] at h
          exact ih (alInsert_keys_nodup hm) h
        | error e =>
          rw [parseLoop_alias_err_step _ m hn ha hc] at h
          exact Except.noConfusion h
      | none =>
        rw [parseLoop_native_step _ m hn ha] at h
        exact ih (alInsert_keys_nodup hm) h

/-! ### `expandLoop` step lemmas -/

theorem expandLoop_zero (reg defs : List (Str × Str)) (nco : Bool) (iter : Int)
    (st : ExpandState) : expandLoop reg defs nco 0 iter st = none := rfl

theorem expandLoop_done {reg defs : List (Str × Str)} {nco : Bool} {fuel : Nat}
    {iter : Int} {st : ExpandState} (h : grokFind st.haystack = none) :
    expandLoop reg defs nco (fuel + 1) iter st = some (.ok st) := by
  simp only [expandLoop, h]

theorem expandLoop_budget {reg defs : List (Str × Str)} {nco : Bool} {fuel : Nat}
    {iter : Int} {st : ExpandState} {caps : GrokCaps}
    (hfind : grokFind st.haystack = some caps) (hiter : iter ≤ 0) :
    expandLoop reg defs nco (fuel + 1) iter st = some (.error .recursionLimit) := by
  simp only [expandLoop, hfind, if_pos hiter]

theorem expandLoop_unknown {reg defs : List (Str × Str)} {nco : Bool} {fuel : Nat}
    {iter : Int} {st : ExpandState} {caps : GrokCaps}
    (hfind : grokFind st.haystack = some caps) (hiter : ¬iter ≤ 0)
    (hres : resolveFrag reg defs caps.pattern = none) :
    expandLoop reg defs nco (fuel + 1) iter st =
      some (.error (.unknownPattern caps.pattern)) := by
  simp only [expandLoop, hfind, if_neg hiter, hres]

theorem expandLoop_found {reg defs : List (Str × Str)} {nco : Bool} {fuel : Nat}
    {iter : Int} {st : ExpandState} {caps : GrokCaps} {frag : Str}
    (hfind : grokFind st.haystack = some caps) (hiter : ¬iter ≤ 0)
    (hres : resolveFrag reg defs caps.pattern = some frag) :
    expandLoop reg defs nco (fuel + 1) iter st =
      match innerLoop nco caps frag (phOf caps) fuel st with
      | none => none
      | some st' => expandLoop reg defs nco fuel (iter - 1) st' := by
  simp only [expandLoop, hfind, if_neg hiter, hres]

theorem hasOccur_append_right {b p : Str} (a : Str) (h : hasOccur b p = true) :
    hasOccur (a ++ b) p = true := by
  induction a with
  | nil => exact h
  | cons c a ih => rw [List.cons_append, hasOccur_cons, ih, Bool.or_true]

theorem hasOccur_ncGroup {frag p : Str} (h : hasOccur frag p = true) :
    hasOccur (ncGroup frag) p = true := by
  show hasOccur (['(', '?', ':'] ++ (frag ++ [')'])) p = true
  exact hasOccur_append_right _ (hasOccur_append_left _ h)

theorem hasOccur_namedGroup {frag p : Str} (n : Str) (h : hasOccur frag p = true) :
    hasOccur (namedGroup n frag) p = true := by
  have he : namedGroup n frag = (['(', '?', '<'] ++ n ++ ['>']) ++ (frag ++ [')']) := by
    simp [namedGroup]
  rw [he]
  exact hasOccur_append_right _ (hasOccur_append_left _ h)

theorem innerLoop_stop {nco : Bool} {caps : GrokCaps} {frag toRepl : Str} {fuel : Nat}
    {st : ExpandState} (h : hasOccur st.haystack toRepl = false) :
    innerLoop nco caps frag toRepl fuel st = some st := by
  cases fuel with
  | zero => simp only [innerLoop, h, Bool.false_eq_true, if_false]
  | succ fuel => simp only [innerLoop, h, Bool.false_eq_true, if_false]

theorem innerLoop_step_nc {nco : Bool} {caps : GrokCaps} {frag toRepl : Str} {fuel : Nat}
    {st : ExpandState} (hca : caps.alias? = none) (hnco : nco = true)
    (h : hasOccur st.haystack toRepl = true) :
    innerLoop nco caps frag toRepl (fuel + 1) st =
      innerLoop nco caps frag toRepl fuel
        { haystack := replaceFirst st.haystack toRepl (ncGroup frag)
          aliasMap := st.aliasMap
          index := st.index + 1 } := by
  subst hnco
  simp only [innerLoop, h, hca, if_true]

theorem innerLoop_step_named_none {nco : Bool} {caps : GrokCaps} {frag toRepl : Str}
    {fuel : Nat} {st : ExpandState} (hca : caps.alias? = none) (hnco : nco = false)
    (h : hasOccur st.haystack toRepl = true) :
    innerLoop nco caps frag toRepl (fuel + 1) st =
      innerLoop nco caps frag toRepl fuel
        { haystack := replaceFirst st.haystack toRepl (namedGroup (genName st.index) frag)
          aliasMap := alInsert st.aliasMap (genName st.index) (caps.pattern, caps.type?)
          index := st.index + 1 } := by
  subst hnco
  simp only [innerLoop, h, hca, if_true, Option.getD]

theorem innerLoop_step_named_some {nco : Bool} {caps : GrokCaps} {frag toRepl : Str}
    {fuel : Nat} {st : ExpandState} {a : Str} (hca : caps.alias? = some a)
    (h : hasOccur st.haystack toRepl = true) :
    innerLoop nco caps frag toRepl (fuel + 1) st =
      innerLoop nco caps frag toRepl fuel
        { haystack := replaceFirst st.haystack toRepl (namedGroup (genName st.index) frag)
          aliasMap := alInsert st.aliasMap (genName st.index) (a, caps.type?)
          index := st.index + 1 } := by
  cases nco <;> simp only [innerLoop, h, hca, if_true, Option.getD]

/-- The inner replacement loop never finishes when the fragment body itself
contains the placeholder being replaced: every substitution reinserts it. -/
theorem innerLoop_diverges {nco : Bool} {caps : GrokCaps} {frag toRepl : Str}
    (hocc : hasOccur frag toRepl = true) :
    ∀ (fuel : Nat) (st : ExpandState), hasOccur st.haystack toRepl = true →
      innerLoop nco caps frag toRepl fuel st = none := by
  intro fuel
  induction fuel with
  | zero =>
    intro st h
    rw [innerLoop, if_pos h]
  | succ fuel ih =>
    intro st h
    cases hca : caps.alias? with
    | none =>
      by_cases hnco : nco = true
      · rw [innerLoop_step_nc hca hnco h]
        exact ih _ (hasOccur_replaceFirst_self (hasOccur_ncGroup hocc) h)
      · have hnco' : nco = false := by
          cases nco
          · rfl
          · exact absurd rfl hnco
        rw [innerLoop_step_named_none hca hnco' h]
        exact ih _ (hasOccur_replaceFirst_self (hasOccur_namedGroup _ hocc) h)
    | some a =>
      rw [innerLoop_step_named_some hca h]
      exact ih _ (hasOccur_replaceFirst_self (hasOccur_namedGroup _ hocc) h)

/-- C5: for every compiled pattern and every input text, when the native regex
matches nowhere (`capsOpt = none`, the engine's report that the first match does
not exist), `parse` returns the empty mapping as a success value, never an
error.  (That only the first match is consumed is the contract of the single
`regex.captures` call the code makes, represented here by `parse` receiving that
one optional capture set.) -/
theorem c5_no_match_empty_ok :
    ∀ (names : List Str) (am : AliasMap), parse names am none = .ok [] :=
  fun _ _ => rfl

/-- C10: a pattern text in which the scanner finds no placeholder is not
rewritten at all, under either flag value: compile returns the regex compiled
from exactly the input text with an empty alias map when the engine accepts the
text, fails with the engine's compile error otherwise, and can never fail with
`UnknownPattern` or `RecursionLimitExceeded`. -/
theorem c10_no_placeholder_passthrough (s : Str) (h : grokFind s = none) :
    ∀ (regexOk : Str → Option Str) (reg defs : List (Str × Str)) (nco : Bool) (fuel : Nat),
      compile regexOk reg defs s nco (fuel + 1) =
        some (match regexOk s with
              | some msg => .error (.regexCompile msg)
              | none => .ok (s, [])) := by
  intro regexOk reg defs nco fuel
  have h1 : compileExpand reg defs s nco (fuel + 1) = some (.ok ⟨s, [], 0⟩) :=
    expandLoop_done h
  simp only [compile, h1]

/-- C10 witness: a concrete placeholder-free pattern compiles to itself with an
empty alias map when the engine accepts it. -/
theorem c10_witness :
    compile (fun _ => none) [] [] "abc".data false 1 = some (.ok ("abc".data, [])) := by
  have := c10_no_placeholder_passthrough "abc".data (by decide) (fun _ => none) [] [] false 0
  simpa using this

/-- C4: during compile, a fragment name found in a placeholder is resolved
against the caller's registry first and against the default library only when
the registry lacks it; when both lack it, the expansion loop fails with the
unknown-pattern error naming that fragment. -/
theorem c4_resolution_order (reg defs : List (Str × Str)) (nco : Bool) (fuel : Nat)
    (iter : Int) (st : ExpandState) (caps : GrokCaps)
    (hfind : grokFind st.haystack = some caps) (hiter : 0 < iter) :
    (∀ f, alGet reg caps.pattern = some f → resolveFrag reg defs caps.pattern = some f)
    ∧ (alGet reg caps.pattern = none →
        resolveFrag reg defs caps.pattern = alGet defs caps.pattern)
    ∧ (resolveFrag reg defs caps.pattern = none →
        expandLoop reg defs nco (fuel + 1) iter st =
          some (.error (.unknownPattern caps.pattern))) := by
  refine ⟨?_, ?_, ?_⟩
  · intro f hf
    simp only [resolveFrag, hf, Option.orElse]
  · intro hf
    simp only [resolveFrag, hf, Option.orElse]
  · intro hres
    exact expandLoop_unknown hfind (by omega) hres

/-- C4 witness: with the fragment in both maps the registry's body wins, and a
fragment absent from both registries aborts compilation with its name. -/
theorem c4_witness :
    resolveFrag [(['P'], ['a'])] [(['P'], ['b'])] ['P'] = some ['a'] ∧
    expandLoop [] [] false 5 MAX_RECURSION ⟨phStr ['X'], [], 0⟩
      = some (.error (.unknownPattern ['X'])) :=
  ⟨(c4_resolution_order [(['P'], ['a'])] [(['P'], ['b'])] false 4 1 ⟨phStr ['P'], [], 0⟩
      ⟨['P'], none, none⟩ (by decide) (by decide)).1 ['a'] (by decide),
   (c4_resolution_order [] [] false 4 MAX_RECURSION ⟨phStr ['X'], [], 0⟩
      ⟨['X'], none, none⟩ (by decide) (by decide)).2.2 (by decide)⟩

/-- C2 fails on the code: with the caller registry `A -> %\x7bA\x7d` (a fragment
whose body is its own placeholder) and template `%\x7bA\x7d`, the first outer
iteration enters the inner replacement loop, every replacement reinserts the
placeholder, and the recursion budget — checked only in the outer loop — is
never consulted again: `compile` never returns, with either flag, whatever the
defaults and however much fuel the model grants the loops.  (The spec's claim
that compile always terminates within the budget is the intent; the unbounded
inner loop is the slip.) -/
theorem c2_divergence_at_failing_input :
    ∀ (defs : List (Str × Str)) (nco : Bool) (fuel : Nat) (regexOk : Str → Option Str),
      compile regexOk [(['A'], phStr ['A'])] defs (phStr ['A']) nco fuel = none := by
  intro defs nco fuel regexOk
  suffices h : compileExpand [(['A'], phStr ['A'])] defs (phStr ['A']) nco fuel = none by
    simp only [compile, h]
  rw [compileExpand]
  cases fuel with
  | zero => exact expandLoop_zero _ _ _ _ _
  | succ fuel =>
    have h1 : grokFind (ExpandState.haystack ⟨phStr ['A'], [], 0⟩) =
        some ⟨['A'], none, none⟩ := by decide
    have h2 : resolveFrag [(['A'], phStr ['A'])] defs (GrokCaps.pattern ⟨['A'], none, none⟩)
        = some (phStr ['A']) := rfl
    rw [expandLoop_found h1 (by decide) h2]
    rw [innerLoop_diverges (by decide) fuel ⟨phStr ['A'], [], 0⟩ (by decide)]

/-- C1 counterexample: in the template `%\x7bNUMBER:digit:wrong\x7d` the
unrecognized type tag makes the whole occurrence unrecognizable to the scanner
(`grokFind` returns `none`, while with tag `int` it matches), so compile's
expansion performs no substitution and records no alias entry at all: the claim
that parse() would deliver the captured substring as a `String` is false — no
capture for `digit` is ever created, and the placeholder text reaches the regex
engine verbatim (the repository's own test asserts that compile then errors). -/
theorem c1_counterexample :
    grokFind ('%' :: lbrace :: ("NUMBER:digit:wrong".data ++ [rbrace])) = none
    ∧ compileExpand [("NUMBER".data, "\\d+".data)] []
        ('%' :: lbrace :: ("NUMBER:digit:wrong".data ++ [rbrace])) false 10
        = some (.ok ⟨'%' :: lbrace :: ("NUMBER:digit:wrong".data ++ [rbrace]), [], 0⟩)
    ∧ grokFind ('%' :: lbrace :: ("NUMBER:digit:int".data ++ [rbrace]))
        = some ⟨"NUMBER".data, some "digit".data, some "int".data⟩ := by
  refine ⟨by decide, ?_, by decide⟩
  rw [compileExpand]
  exact expandLoop_done (by decide)

/-- C1 (amended): a placeholder whose type tag is not one of
`int`/`float`/`bool`/`boolean` (e.g. `%\x7bNUMBER:digit:wrong\x7d`) is not
recognized by the scanner at all: compile's expansion leaves the template
verbatim and records no alias entry, for any registry and either flag (so the
occurrence reaches the regex engine as literal text and, in this example,
compile fails there, as the repository's test asserts).  It is the absence of a
type tag on an alias-map entry that coerces to `Value::String(raw)` at parse
time; the parse-time branch for an unrecognized tag string also yields
`Value::String(raw)`, but compile can never produce such an entry. -/
theorem c1_amended :
    (∀ (reg defs : List (Str × Str)) (nco : Bool) (fuel : Nat),
      compileExpand reg defs ('%' :: lbrace :: ("NUMBER:digit:wrong".data ++ [rbrace]))
          nco (fuel + 1)
        = some (.ok ⟨'%' :: lbrace :: ("NUMBER:digit:wrong".data ++ [rbrace]), [], 0⟩))
    ∧ (∀ v : Str, convert none v = .ok (.String v))
    ∧ (∀ v : Str, convert (some "wrong".data) v = .ok (.String v)) := by
  refine ⟨?_, fun v => rfl, fun v => rfl⟩
  intro reg defs nco fuel
  rw [compileExpand]
  exact expandLoop_done (by decide)

/-! ### Typed conversion facts -/

theorem convert_int_eq (v : Str) :
    convert (some tyInt) v =
      match parseI64 v with
      | .ok k => .ok (.Int k)
      | .error e => .error (e ++ ':' :: ' ' :: v) := rfl

theorem convert_float_eq (v : Str) :
    convert (some tyFloat) v =
      match parseF64 v with
      | some f => .ok (.Float f)
      | none => .error (msgFloat ++ ':' :: ' ' :: v) := rfl

theorem convert_bool_eq (v : Str) :
    convert (some tyBool) v =
      match parseBoolR v with
      | .ok b => .ok (.Bool b)
      | .error e => .error (e ++ ':' :: ' ' :: v) := rfl

theorem convert_boolean_eq (v : Str) :
    convert (some tyBoolean) v =
      match parseBoolR v with
      | .ok b => .ok (.Bool b)
      | .error e => .error (e ++ ':' :: ' ' :: v) := rfl

theorem parseI64_range {v : Str} {k : Int} (h : parseI64 v = .ok k) :
    -(2 ^ 63) ≤ k ∧ k < 2 ^ 63 := by
  cases v with
  | nil => exact absurd h (fun hh => Except.noConfusion hh)
  | cons c t =>
    have h' : parseI64Core (signSplit (c :: t)) = .ok k := h
    rw [parseI64Core] at h'
    rcases hsd : signSplit (c :: t) with ⟨neg, ds⟩
    rw [hsd] at h'
    by_cases h1 : ds = []
    · rw [if_pos h1] at h'
      exact absurd h' (fun hh => Except.noConfusion hh)
    · rw [if_neg h1] at h'
      by_cases h2 : ds.all Char.isDigit
      · rw [if_pos h2] at h'
        cases neg with
        | true =>
          by_cases h3 : decodeDigits ds ≤ 2 ^ 63
          · rw [if_pos h3] at h'
            simp only [if_true] at h'
            cases h'
            constructor
            · rw [neg_le, Int.neg_neg]
              exact_mod_cast h3
            · have : (0 : Int) ≤ decodeDigits ds := Int.ofNat_nonneg _
              omega
          · rw [if_neg h3] at h'
            simp only [if_true] at h'
            exact absurd h' (fun hh => Except.noConfusion hh)
        | false =>
          by_cases h3 : decodeDigits ds < 2 ^ 63
          · rw [if_pos h3] at h'
            simp only [Bool.false_eq_true, if_false] at h'
            cases h'
            constructor
            · have : (0 : Int) ≤ decodeDigits ds := Int.ofNat_nonneg _
              omega
            · exact_mod_cast h3
          · rw [if_neg h3] at h'
            simp only [Bool.false_eq_true, if_false] at h'
            exact absurd h' (fun hh => Except.noConfusion hh)
      · rw [if_neg h2] at h'
        exact absurd h' (fun hh => Except.noConfusion hh)

theorem parseBoolR_iff (v : Str) (b : Bool) :
    parseBoolR v = .ok b ↔
      ((v = "true".data ∧ b = true) ∨ (v = "false".data ∧ b = false)) := by
  constructor
  · intro h
    rw [parseBoolR] at h
    by_cases h1 : v = "true".data
    · rw [if_pos h1] at h
      cases h
      exact Or.inl ⟨h1, rfl⟩
    · rw [if_neg h1] at h
      by_cases h2 : v = "false".data
      · rw [if_pos h2] at h
        cases h
        exact Or.inr ⟨h2, rfl⟩
      · rw [if_neg h2] at h
        exact absurd h (fun hh => Except.noConfusion hh)
  · rintro (⟨rfl, rfl⟩ | ⟨rfl, rfl⟩)
    · rfl
    · rfl

/-- C6: for participating captures whose alias-map entry carries a type tag:
`int` parses the substring as a 64-bit signed integer into `Value.Int` (the
produced value always lies in the 64-bit signed range), `float` parses it by
Rust's `f64` grammar into `Value.Float`, `bool`/`boolean` accept exactly the
literals `true`/`false` into `Value.Bool`; and any conversion failure of any
participating tagged capture makes the whole `parse` call return an error — the
`Except.error` result carries no mapping, so no partial mapping reaches the
caller, and conversely a successful `parse` implies every participating tagged
capture converted. -/
theorem c6_type_coercion_abort :
    (∀ (v : Str) (b : Bool), parseBoolR v = .ok b ↔
      ((v = "true".data ∧ b = true) ∨ (v = "false".data ∧ b = false)))
    ∧ (∀ (v : Str) (k : Int), parseI64 v = .ok k → -(2 ^ 63) ≤ k ∧ k < 2 ^ 63)
    ∧ (∀ (v : Str) (k : Int), parseI64 v = .ok k →
        convert (some tyInt) v = .ok (.Int k))
    ∧ (∀ (v e : Str), parseI64 v = .error e →
        convert (some tyInt) v = .error (e ++ ':' :: ' ' :: v))
    ∧ (∀ (v : Str) (f : FloatVal), parseF64 v = some f →
        convert (some tyFloat) v = .ok (.Float f))
    ∧ (∀ v : Str, parseF64 v = none →
        convert (some tyFloat) v = .error (msgFloat ++ ':' :: ' ' :: v))
    ∧ (∀ (v : Str) (b : Bool), parseBoolR v = .ok b →
        convert (some tyBool) v = .ok (.Bool b) ∧ convert (some tyBoolean) v = .ok (.Bool b))
    ∧ (∀ (v e : Str), parseBoolR v = .error e →
        convert (some tyBool) v = .error (e ++ ':' :: ' ' :: v)
        ∧ convert (some tyBoolean) v = .error (e ++ ':' :: ' ' :: v))
    ∧ (∀ (names : List Str) (am : AliasMap) (caps : List (Str × Str)) (n a v : Str)
        (T : Option Str) (e0 : Str), n ∈ names → alGet caps n = some v →
        alGet am n = some (a, T) → convert T v = .error e0 →
        ∃ e, parse names am (some caps) = .error e)
    ∧ (∀ (names : List Str) (am : AliasMap) (caps : List (Str × Str))
        (m' : List (Str × Value)) (n a v : Str) (T : Option Str),
        parse names am (some caps) = .ok m' → n ∈ names → alGet caps n = some v →
        alGet am n = some (a, T) → ∃ val, convert T v = .ok val) := by
  refine ⟨parseBoolR_iff, fun v k => parseI64_range, ?_, ?_, ?_, ?_, ?_, ?_, ?_, ?_⟩
  · intro v k hk
    rw [convert_int_eq, hk]
  · intro v e he
    rw [convert_int_eq, he]
  · intro v f hf
    rw [convert_float_eq, hf]
  · intro v hf
    rw [convert_float_eq, hf]
  · intro v b hb
    rw [convert_bool_eq, convert_boolean_eq, hb]
    exact ⟨rfl, rfl⟩
  · intro v e he
    rw [convert_bool_eq, convert_boolean_eq, he]
    exact ⟨rfl, rfl⟩
  · intro names am caps n a v T e0 hn hcap ham hbad
    exact parseLoop_err_of_bad hn hcap ham hbad []
  · intro names am caps m' n a v T h hn hcap ham
    cases hc : convert T v with
    | ok val => exact ⟨val, rfl⟩
    | error e0 =>
      rcases parseLoop_err_of_bad hn hcap ham hc ([] : List (Str × Value)) with ⟨e, he⟩
      rw [show parse names am (some caps) = parseLoop am caps names [] from rfl, he] at h
      exact Except.noConfusion h

/-- C6 witness: `123` converts under tag `int` to `Int 123`; a tagged capture
that fails to convert (`4.2` under `int`) aborts the whole parse with an error;
`maybe` is rejected by the `bool` tag. -/
theorem c6_witness :
    convert (some tyInt) "123".data = .ok (.Int 123)
    ∧ (∃ e, parse ["name0".data] [("name0".data, ("digit".data, some tyInt))]
        (some [("name0".data, "4.2".data)]) = .error e)
    ∧ convert (some tyBool) "maybe".data = .error (msgBool ++ ':' :: ' ' :: "maybe".data) :=
  ⟨c6_type_coercion_abort.2.2.1 "123".data 123 (by rfl),
   c6_type_coercion_abort.2.2.2.2.2.2.2.2.1 ["name0".data]
     [("name0".data, ("digit".data, some tyInt))] [("name0".data, "4.2".data)]
     "name0".data "digit".data "4.2".data (some tyInt) (msgIntInvalid ++ ':' :: ' ' :: "4.2".data)
     (List.mem_cons_self _ _) (by rfl) (by rfl) (by rfl),
   c6_type_coercion_abort.2.2.2.2.2.2.2.1 "maybe".data msgBool (by rfl) |>.1⟩

/-! ### The two-fragment cycle (C3) -/

theorem grokFind_of_matchAt {c : GrokCaps} {a : Char} {t : Str}
    (h : matchAt (a :: t) = some c) : grokFind (a :: t) = some c := by
  rw [grokFind_cons, h]

theorem phOf_plain (F : Str) : phOf ⟨F, none, none⟩ = phStr F := by
  simp [phOf, nameOf, phStr]

theorem grokFind_cycle {pre suf : Str} {X : Char} (hpre : noPct pre)
    (hX : isWordChar X = true) :
    grokFind (pre ++ (phStr [X] ++ suf)) = some ⟨[X], none, none⟩ := by
  rw [grokFind_append_noPct _ hpre, phStr_cons]
  refine grokFind_of_matchAt ?_
  have hm := matchAt_ph suf (List.cons_ne_nil X [])
    (fun c hc => by rw [List.mem_singleton] at hc; subst hc; exact hX)
  simpa using hm

theorem cycle_inner (nco : Bool) {X Y : Char} (pre suf : Str) (am : AliasMap) (i : Nat)
    (hpre : noPct pre) (hsuf : noPct suf) (hXY : X ≠ Y) (hY : Y ≠ '%') (fuel : Nat) :
    ∃ pre' suf' am', noPct pre' ∧ noPct suf' ∧
      innerLoop nco ⟨[X], none, none⟩ (phStr [Y]) (phStr [X]) (fuel + 1)
        ⟨pre ++ (phStr [X] ++ suf), am, i⟩
        = some ⟨pre' ++ (phStr [Y] ++ suf'), am', i + 1⟩ := by
  have hph : ∃ p', phStr [X] = '%' :: p' := ⟨_, rfl⟩
  have hocc : hasOccur (pre ++ (phStr [X] ++ suf)) (phStr [X]) = true :=
    hasOccur_mid pre (phStr [X]) suf
  have hrepl : ∀ r : Str,
      replaceFirst (pre ++ (phStr [X] ++ suf)) (phStr [X]) r = pre ++ (r ++ suf) := by
    intro r
    rw [replaceFirst_append_noPct (phStr [X] ++ suf) (phStr [X]) r hpre hph,
      replaceFirst_head]
  have h1 : (phStr [X]).isPrefixOf ('%' :: lbrace :: ([Y] ++ rbrace :: ')' :: suf)) = false := by
    show List.isPrefixOf ('%' :: lbrace :: ([X] ++ [rbrace])) _ = false
    simp only [List.cons_append, List.nil_append, List.isPrefixOf, Bool.and_eq_false_iff]
    exact Or.inr (Or.inr (Or.inl (beq_eq_false_iff_ne.2 hXY)))
  have hnew : ∀ pre1 : Str, noPct pre1 →
      hasOccur ((pre ++ pre1) ++ (phStr [Y] ++ ')' :: suf)) (phStr [X]) = false := by
    intro pre1 hpre1
    have hcomb : noPct (pre ++ pre1) := by
      intro c hc
      rcases List.mem_append.1 hc with h' | h'
      · exact hpre c h'
      · exact hpre1 c h'
    rw [hasOccur_append_noPct (phStr [Y] ++ ')' :: suf) (phStr [X]) hcomb hph,
      phStr_cons, hasOccur_cons, h1, Bool.false_or]
    refine hasOccur_noPct ?_ hph
    intro c hc
    rcases List.mem_cons.1 hc with h' | h'
    · subst h'; decide
    · rcases List.mem_append.1 h' with h'' | h''
      · rw [List.mem_singleton] at h''; subst h''; exact hY
      · rcases List.mem_cons.1 h'' with h3 | h3
        · subst h3; decide
        · rcases List.mem_cons.1 h3 with h4 | h4
          · subst h4; decide
          · exact hsuf c h4
  cases hnco : nco with
  | true =>
    have hpre' : noPct (pre ++ ['(', '?', ':']) := by
      intro c hc
      rcases List.mem_append.1 hc with h' | h'
      · exact hpre c h'
      · exact (by decide : noPct ['(', '?', ':']) c h'
    have hsuf' : noPct (')' :: suf) := by
      intro c hc
      rcases List.mem_cons.1 hc with h' | h'
      · subst h'; decide
      · exact hsuf c h'
    refine ⟨pre ++ ['(', '?', ':'], ')' :: suf, am, hpre', hsuf', ?_⟩
    rw [innerLoop_step_nc rfl rfl hocc]
    show innerLoop true ⟨[X], none, none⟩ (phStr [Y]) (phStr [X]) fuel
        ⟨replaceFirst (pre ++ (phStr [X] ++ suf)) (phStr [X]) (ncGroup (phStr [Y])), am, i + 1⟩
      = _
    rw [hrepl, show pre ++ (ncGroup (phStr [Y]) ++ suf)
        = (pre ++ ['(', '?', ':']) ++ (phStr [Y] ++ ')' :: suf) by
      show pre ++ (('(' :: '?' :: ':' :: (phStr [Y] ++ [')'])) ++ suf) = _
      simp]
    exact innerLoop_stop (hnew ['(', '?', ':'] (by decide))
  | false =>
    have hpre' : noPct ((pre ++ ['(', '?', '<']) ++ (genName i ++ ['>'])) := by
      intro c hc
      rcases List.mem_append.1 hc with h' | h'
      · rcases List.mem_append.1 h' with h'' | h''
        · exact hpre c h''
        · exact (by decide : noPct ['(', '?', '<']) c h''
      · rcases List.mem_append.1 h' with h'' | h''
        · exact genName_noPct i c h''
        · rw [List.mem_singleton] at h''; subst h''; decide
    have hsuf' : noPct (')' :: suf) := by
      intro c hc
      rcases List.mem_cons.1 hc with h' | h'
      · subst h'; decide
      · exact hsuf c h'
    refine ⟨(pre ++ ['(', '?', '<']) ++ (genName i ++ ['>']), ')' :: suf,
      alInsert am (genName i) ([X], none), hpre', hsuf', ?_⟩
    rw [innerLoop_step_named_none rfl rfl hocc]
    show innerLoop false ⟨[X], none, none⟩ (phStr [Y]) (phStr [X]) fuel
        ⟨replaceFirst (pre ++ (phStr [X] ++ suf)) (phStr [X])
            (namedGroup (genName i) (phStr [Y])),
          alInsert am (genName i) ([X], none), i + 1⟩
      = _
    rw [hrepl, show pre ++ (namedGroup (genName i) (phStr [Y]) ++ suf)
        = ((pre ++ ['(', '?', '<']) ++ (genName i ++ ['>'])) ++ (phStr [Y] ++ ')' :: suf) by
      show pre ++ (('(' :: '?' :: '<' :: (genName i ++ '>' :: (phStr [Y] ++ [')']))) ++ suf) = _
      simp]
    refine innerLoop_stop ?_
    have := hnew (['(', '?', '<'] ++ (genName i ++ ['>'])) (by
      intro c hc
      rcases List.mem_append.1 hc with h' | h'
      · exact (by decide : noPct ['(', '?', '<']) c h'
      · rcases List.mem_append.1 h' with h'' | h''
        · exact genName_noPct i c h''
        · rw [List.mem_singleton] at h''; subst h''; decide)
    rw [show (pre ++ (['(', '?', '<'] ++ (genName i ++ ['>'])))
        = ((pre ++ ['(', '?', '<']) ++ (genName i ++ ['>'])) by simp] at this
    exact this

theorem cycle_run (defs : List (Str × Str)) (nco : Bool) :
    ∀ (k fuel : Nat) (pre suf : Str) (am : AliasMap) (i : Nat) (X : Char),
      (X = 'A' ∨ X = 'B') → noPct pre → noPct suf → 2 * k + 3 ≤ fuel →
      expandLoop [(['A'], phStr ['B']), (['B'], phStr ['A'])] defs nco fuel (k : Int)
        ⟨pre ++ (phStr [X] ++ suf), am, i⟩ = some (.error .recursionLimit) := by
  intro k
  induction k with
  | zero =>
    intro fuel pre suf am i X hX hpre hsuf hfuel
    obtain ⟨f, rfl⟩ : ∃ f, fuel = f + 1 := ⟨fuel - 1, by omega⟩
    have hfind : grokFind (ExpandState.haystack ⟨pre ++ (phStr [X] ++ suf), am, i⟩)
        = some ⟨[X], none, none⟩ :=
      grokFind_cycle hpre (by rcases hX with rfl | rfl <;> decide)
    exact expandLoop_budget hfind (by omega)
  | succ k ih =>
    intro fuel pre suf am i X hX hpre hsuf hfuel
    obtain ⟨g, rfl⟩ : ∃ g, fuel = g + 2 := ⟨fuel - 2, by omega⟩
    have hfind : grokFind (ExpandState.haystack ⟨pre ++ (phStr [X] ++ suf), am, i⟩)
        = some ⟨[X], none, none⟩ :=
      grokFind_cycle hpre (by rcases hX with rfl | rfl <;> decide)
    have hiter : ¬((k + 1 : Nat) : Int) ≤ 0 := by omega
    have hcast : ((k + 1 : Nat) : Int) - 1 = ((k : Nat) : Int) := by push_cast; ring
    rcases hX with rfl | rfl
    · have hres : resolveFrag [(['A'], phStr ['B']), (['B'], phStr ['A'])] defs
          (GrokCaps.pattern ⟨['A'], none, none⟩) = some (phStr ['B']) := rfl
      rw [expandLoop_found hfind hiter hres]
      rcases cycle_inner nco pre suf am i hpre hsuf
        (show ('A' : Char) ≠ 'B' by decide) (show ('B' : Char) ≠ '%' by decide) g with
        ⟨pre', suf', am', hpre', hsuf', hinner⟩
      rw [phOf_plain, hinner, hcast]
      exact ih (g + 1) pre' suf' am' (i + 1) 'B' (Or.inr rfl) hpre' hsuf' (by omega)
    · have hres : resolveFrag [(['A'], phStr ['B']), (['B'], phStr ['A'])] defs
          (GrokCaps.pattern ⟨['B'], none, none⟩) = some (phStr ['A']) := rfl
      rw [expandLoop_found hfind hiter hres]
      rcases cycle_inner nco pre suf am i hpre hsuf
        (show ('B' : Char) ≠ 'A' by decide) (show ('A' : Char) ≠ '%' by decide) g with
        ⟨pre', suf', am', hpre', hsuf', hinner⟩
      rw [phOf_plain, hinner, hcast]
      exact ih (g + 1) pre' suf' am' (i + 1) 'A' (Or.inl rfl) hpre' hsuf' (by omega)

/-- C3: with the caller registry `A -> %\x7bB\x7d, B -> %\x7bA\x7d` and template
`%\x7bA\x7d`, compile terminates and fails with the recursion-limit error once
the budget of 1024 outer iterations is exhausted, producing no compiled
pattern — for any defaults, either flag, any regex engine, and any
sufficiently large fuel (2051 suffices; adding fuel does not change the
result, which is the model's expression of termination). -/
theorem c3_cycle_recursion_limit :
    ∀ (defs : List (Str × Str)) (nco : Bool) (extra : Nat) (regexOk : Str → Option Str),
      compile regexOk [(['A'], phStr ['B']), (['B'], phStr ['A'])] defs (phStr ['A']) nco
        (2051 + extra) = some (.error .recursionLimit) := by
  intro defs nco extra regexOk
  have h : compileExpand [(['A'], phStr ['B']), (['B'], phStr ['A'])] defs (phStr ['A']) nco
      (2051 + extra) = some (.error .recursionLimit) := by
    rw [compileExpand]
    have h0 := cycle_run defs nco 1024 (2051 + extra) [] [] [] 0 'A' (Or.inl rfl)
      (by decide) (by decide) (by omega)
    rw [show (([] : Str) ++ (phStr ['A'] ++ [])) = phStr ['A'] by simp] at h0
    exact h0
  simp only [compile, h]

/-! ### Uniqueness of generated capture names (C9) -/

theorem genName_fresh {is : List Nat} {i : Nat} (hb : ∀ j ∈ is, j < i) :
    genName i ∉ is.map genName := by
  intro hmem
  rcases List.mem_map.1 hmem with ⟨j, hj, hje⟩
  have : j = i := genName_inj hje
  subst this
  exact absurd (hb j hj) (lt_irrefl j)

theorem chain_snoc {is : List Nat} {i : Nat} (hc : List.Chain' (· < ·) is)
    (hb : ∀ j ∈ is, j < i) : List.Chain' (· < ·) (is ++ [i]) := by
  refine List.Chain'.append hc (List.chain'_singleton i) ?_
  intro x hx y hy
  rw [List.head?_cons, Option.mem_some_iff] at hy
  subst hy
  exact hb x (List.mem_of_mem_getLast? hx)

/-- The alias-map invariant of one compile call: the keys are the generated
names of a strictly increasing list of counter values, all below the current
counter. -/
def NamesInv (st : ExpandState) : Prop :=
  ∃ is : List Nat, List.Chain' (· < ·) is
    ∧ st.aliasMap.map Prod.fst = is.map genName
    ∧ ∀ j ∈ is, j < st.index

theorem namesInv_insert {am : AliasMap} {i : Nat} {is : List Nat}
    (hc : List.Chain' (· < ·) is) (hk : am.map Prod.fst = is.map genName)
    (hb : ∀ j ∈ is, j < i) (v : Str × Option Str) :
    List.Chain' (· < ·) (is ++ [i])
    ∧ (alInsert am (genName i) v).map Prod.fst = (is ++ [i]).map genName
    ∧ ∀ j ∈ is ++ [i], j < i + 1 := by
  refine ⟨chain_snoc hc hb, ?_, ?_⟩
  · rw [alInsert_of_not_mem v (by rw [hk]; exact genName_fresh hb)]
    rw [List.map_append, hk, List.map_append]
    rfl
  · intro j hj
    rcases List.mem_append.1 hj with h' | h'
    · exact Nat.lt_succ_of_lt (hb j h')
    · rw [List.mem_singleton] at h'
      subst h'
      exact Nat.lt_succ_self j

theorem innerLoop_inv {nco : Bool} {caps : GrokCaps} {frag toRepl : Str} :
    ∀ (fuel : Nat) (st st' : ExpandState),
      innerLoop nco caps frag toRepl fuel st = some st' → NamesInv st → NamesInv st' := by
  intro fuel
  induction fuel with
  | zero =>
    intro st st' h hinv
    rw [innerLoop] at h
    by_cases hocc : hasOccur st.haystack toRepl = true
    · rw [if_pos hocc] at h
      exact Option.noConfusion h
    · rw [if_neg hocc] at h
      cases h
      exact hinv
  | succ fuel ih =>
    intro st st' h hinv
    rcases hinv with ⟨is, hc, hk, hb⟩
    by_cases hocc : hasOccur st.haystack toRepl = true
    · cases hca : caps.alias? with
      | none =>
        by_cases hnco : nco = true
        · rw [innerLoop_step_nc hca hnco hocc] at h
          refine ih _ _ h ⟨is, hc, hk, ?_⟩
          intro j hj
          exact Nat.lt_succ_of_lt (hb j hj)
        · have hnco' : nco = false := by
            cases nco
            · rfl
            · exact absurd rfl hnco
          rw [innerLoop_step_named_none hca hnco' hocc] at h
          rcases namesInv_insert hc hk hb (caps.pattern, caps.type?) with ⟨hc', hk', hb'⟩
          exact ih _ _ h ⟨is ++ [st.index], hc', hk', hb'⟩
      | some a =>
        rw [innerLoop_step_named_some hca hocc] at h
        rcases namesInv_insert hc hk hb (a, caps.type?) with ⟨hc', hk', hb'⟩
        exact ih _ _ h ⟨is ++ [st.index], hc', hk', hb'⟩
    · rw [innerLoop_stop (Bool.not_eq_true _ ▸ hocc)] at h
      cases h
      exact ⟨is, hc, hk, hb⟩

theorem expandLoop_inv {reg defs : List (Str × Str)} {nco : Bool} :
    ∀ (fuel : Nat) (iter : Int) (st st' : ExpandState),
      expandLoop reg defs nco fuel iter st = some (.ok st') → NamesInv st → NamesInv st' := by
  intro fuel
  induction fuel with
  | zero =>
    intro iter st st' h _
    rw [expandLoop_zero] at h
    exact Option.noConfusion h
  | succ fuel ih =>
    intro iter st st' h hinv
    cases hfind : grokFind st.haystack with
    | none =>
      rw [expandLoop_done hfind] at h
      cases h
      exact hinv
    | some caps =>
      by_cases hiter : iter ≤ 0
      · rw [expandLoop_budget hfind hiter] at h
        cases h
      · cases hres : resolveFrag reg defs caps.pattern with
        | none =>
          rw [expandLoop_unknown hfind hiter hres] at h
          cases h
        | some frag =>
          rw [expandLoop_found hfind hiter hres] at h
          cases hinner : innerLoop nco caps frag (phOf caps) fuel st with
          | none =>
            rw [hinner] at h
            exact Option.noConfusion h
          | some st1 =>
            rw [hinner] at h
            exact ih _ _ _ h (innerLoop_inv fuel st st1 hinner hinv)

/-- C9: within one compile call every generated capture name is unique: the
alias map produced by a successful expansion has keys that are exactly the
generated names of a strictly increasing sequence of counter values (the
counter increases across all substitutions), hence pairwise distinct — no named
capture group is introduced twice by the generator. -/
theorem c9_unique_generated_names (reg defs : List (Str × Str)) (s : Str) (nco : Bool)
    (fuel : Nat) (st' : ExpandState)
    (h : compileExpand reg defs s nco fuel = some (.ok st')) :
    ∃ is : List Nat, List.Chain' (· < ·) is
      ∧ st'.aliasMap.map Prod.fst = is.map genName
      ∧ (st'.aliasMap.map Prod.fst).Nodup := by
  have hinv : NamesInv st' := by
    refine expandLoop_inv fuel MAX_RECURSION ⟨s, [], 0⟩ st' h ?_
    exact ⟨[], List.chain'_nil, rfl, fun j hj => absurd hj (List.not_mem_nil j)⟩
  rcases hinv with ⟨is, hc, hk, _⟩
  refine ⟨is, hc, hk, ?_⟩
  rw [hk]
  refine List.Nodup.map (fun a b hab => genName_inj hab) ?_
  exact (List.chain'_iff_pairwise.1 hc).nodup

/-- C9 witness: compiling `%\x7bW\x7d %\x7bW\x7d` yields the two distinct
generated names `name0`, `name1`, an increasing counter sequence. -/
theorem c9_witness :
    ∃ is : List Nat, List.Chain' (· < ·) is
      ∧ (ExpandState.aliasMap ⟨['(', '?', '<', 'n', 'a', 'm', 'e', '0', '>', 'w', ')', ' ',
            '(', '?', '<', 'n', 'a', 'm', 'e', '1', '>', 'w', ')'],
          [("name0".data, (['W'], none)), ("name1".data, (['W'], none))], 2⟩).map Prod.fst
        = is.map genName
      ∧ ((ExpandState.aliasMap ⟨['(', '?', '<', 'n', 'a', 'm', 'e', '0', '>', 'w', ')', ' ',
            '(', '?', '<', 'n', 'a', 'm', 'e', '1', '>', 'w', ')'],
          [("name0".data, (['W'], none)), ("name1".data, (['W'], none))], 2⟩).map
            Prod.fst).Nodup :=
  c9_unique_generated_names [(['W'], ['w'])] [] (phStr ['W'] ++ ' ' :: phStr ['W']) false 10
    ⟨['(', '?', '<', 'n', 'a', 'm', 'e', '0', '>', 'w', ')', ' ',
        '(', '?', '<', 'n', 'a', 'm', 'e', '1', '>', 'w', ')'],
      [("name0".data, (['W'], none)), ("name1".data, (['W'], none))], 2⟩ (by rfl)

/-! ### Shared external aliases (C8) -/

theorem parseLoop_split {am : AliasMap} {caps : List (Str × Str)} {u w : List Str}
    {m m' : List (Str × Value)} (h : parseLoop am caps (u ++ w) m = .ok m') :
    ∃ mm, parseLoop am caps u m = .ok mm ∧ parseLoop am caps w mm = .ok m' := by
  rw [parseLoop_append] at h
  cases hu : parseLoop am caps u m with
  | ok mm =>
    rw [hu] at h
    exact ⟨mm, rfl, h⟩
  | error e =>
    rw [hu] at h
    exact Except.noConfusion h

/-- C8: when two distinct generated capture names map to the same external
alias (as compiling `%\x7bA:x\x7d|%\x7bB:x\x7d` produces — first conjunct), the
parse loop is deterministic about the shared key: if exactly one of them
participates in the match, the result maps its value under the external alias
regardless of which one it is; if both participate, the result holds exactly
one value for that key (the result's keys are duplicate-free and the key is
bound) — the participant occurring later in the regex's capture list (the
rightmost occurrence in the compiled regex) wins deterministically, since the
loop walks the capture names in order and the map insert overwrites. -/
theorem c8_shared_alias (x n1 n2 : Str) (l1 l2 l3 : List Str) (am : AliasMap)
    (caps : List (Str × Str))
    (hnd : (l1 ++ (n1 :: (l2 ++ (n2 :: l3)))).Nodup)
    (h1 : alGet am n1 = some (x, none)) (h2 : alGet am n2 = some (x, none))
    (hw : ∀ n ∈ l1 ++ (n1 :: (l2 ++ (n2 :: l3))), outKey am n = x → n = n1 ∨ n = n2) :
    (compileExpand [(['A'], ['a', '+']), (['B'], ['b', '+'])] []
        ['%', lbrace, 'A', ':', 'x', rbrace, '|', '%', lbrace, 'B', ':', 'x', rbrace]
        false 10
      = some (.ok ⟨['(', '?', '<', 'n', 'a', 'm', 'e', '0', '>', 'a', '+', ')', '|',
          '(', '?', '<', 'n', 'a', 'm', 'e', '1', '>', 'b', '+', ')'],
          [("name0".data, (['x'], none)), ("name1".data, (['x'], none))], 2⟩))
    ∧ (∀ (v1 : Str) (m' : List (Str × Value)),
        alGet caps n1 = some v1 → alGet caps n2 = none →
        parse (l1 ++ (n1 :: (l2 ++ (n2 :: l3)))) am (some caps) = .ok m' →
        alGet m' x = some (.String v1))
    ∧ (∀ (v2 : Str) (m' : List (Str × Value)),
        alGet caps n1 = none → alGet caps n2 = some v2 →
        parse (l1 ++ (n1 :: (l2 ++ (n2 :: l3)))) am (some caps) = .ok m' →
        alGet m' x = some (.String v2))
    ∧ (∀ (v1 v2 : Str) (m' : List (Str × Value)),
        alGet caps n1 = some v1 → alGet caps n2 = some v2 →
        parse (l1 ++ (n1 :: (l2 ++ (n2 :: l3)))) am (some caps) = .ok m' →
        alGet m' x = some (.String v2) ∧ (m'.map Prod.fst).Nodup) := by
  obtain ⟨hl1, hM, hdisj⟩ := List.nodup_append.1 hnd
  rw [List.nodup_cons] at hM
  obtain ⟨hn1notin, hrest⟩ := hM
  obtain ⟨hl2, hn2l3, hdisj2⟩ := List.nodup_append.1 hrest
  rw [List.nodup_cons] at hn2l3
  obtain ⟨hn2notl3, _⟩ := hn2l3
  have hn1l2 : n1 ∉ l2 := fun h => hn1notin (List.mem_append_left _ h)
  have hn1n2 : n1 ≠ n2 := fun h => hn1notin (h ▸ List.mem_append_right _ (List.mem_cons_self _ _))
  have hn1l3 : n1 ∉ l3 := fun h => hn1notin (List.mem_append_right _ (List.mem_cons_of_mem _ h))
  have hU1 : ∀ n ∈ l1, outKey am n = x → alGet caps n = none := by
    intro n hn hk
    rcases hw n (List.mem_append_left _ hn) hk with rfl | rfl
    · exact absurd (hdisj hn) (by simp)
    · exact absurd (hdisj hn) (by simp)
  have hU2 : ∀ n ∈ l2, outKey am n = x → alGet caps n = none := by
    intro n hn hk
    rcases hw n (List.mem_append_right _ (List.mem_cons_of_mem _
      (List.mem_append_left _ hn))) hk with rfl | rfl
    · exact absurd hn hn1l2
    · exact absurd (hdisj2 hn) (by simp)
  have hU3 : ∀ n ∈ l3, outKey am n = x → alGet caps n = none := by
    intro n hn hk
    rcases hw n (List.mem_append_right _ (List.mem_cons_of_mem _
      (List.mem_append_right _ (List.mem_cons_of_mem _ hn)))) hk with rfl | rfl
    · exact absurd hn hn1l3
    · exact absurd hn hn2notl3
  refine ⟨by rfl, ?_, ?_, ?_⟩
  · intro v1 m' hc1 hc2 h
    rw [show parse (l1 ++ (n1 :: (l2 ++ (n2 :: l3)))) am (some caps)
        = parseLoop am caps (l1 ++ (n1 :: (l2 ++ (n2 :: l3)))) [] from rfl] at h
    rcases parseLoop_split h with ⟨mA, _, h⟩
    rw [parseLoop_writer_step _ _ hc1 h1] at h
    rcases parseLoop_split h with ⟨mB, hB, h⟩
    rw [parseLoop_skip_step _ _ hc2] at h
    rw [parseLoop_untouched hU3 h, parseLoop_untouched hU2 hB, alGet_alInsert_self]
  · intro v2 m' hc1 hc2 h
    rw [show parse (l1 ++ (n1 :: (l2 ++ (n2 :: l3)))) am (some caps)
        = parseLoop am caps (l1 ++ (n1 :: (l2 ++ (n2 :: l3)))) [] from rfl] at h
    rcases parseLoop_split h with ⟨mA, _, h⟩
    rw [parseLoop_skip_step _ _ hc1] at h
    rcases parseLoop_split h with ⟨mB, _, h⟩
    rw [parseLoop_writer_step _ _ hc2 h2] at h
    rw [parseLoop_untouched hU3 h, alGet_alInsert_self]
  · intro v1 v2 m' hc1 hc2 h
    rw [show parse (l1 ++ (n1 :: (l2 ++ (n2 :: l3)))) am (some caps)
        = parseLoop am caps (l1 ++ (n1 :: (l2 ++ (n2 :: l3)))) [] from rfl] at h
    have hnodup : (m'.map Prod.fst).Nodup := parseLoop_keys_nodup (by simp) h
    rcases parseLoop_split h with ⟨mA, _, h⟩
    rw [parseLoop_writer_step _ _ hc1 h1] at h
    rcases parseLoop_split h with ⟨mB, hB, h⟩
    rw [parseLoop_writer_step _ _ hc2 h2] at h
    have hval : alGet m' x = some (.String v2) := by
      rw [parseLoop_untouched hU3 h, alGet_alInsert_self]
    exact ⟨hval, hnodup⟩

/-- C8 witness: with both sides of `%\x7bA:x\x7d|%\x7bB:x\x7d` participating,
the later capture (`name1`, value `bb`) wins deterministically and the result's
keys are duplicate-free, so it holds exactly one binding for key `x`. -/
theorem c8_witness :
    alGet [(['x'], Value.String ['b', 'b'])] ['x'] = some (.String ['b', 'b'])
    ∧ (([(['x'], Value.String ['b', 'b'])] : List (Str × Value)).map Prod.fst).Nodup :=
  (c8_shared_alias ['x'] "name0".data "name1".data [] [] []
      [("name0".data, (['x'], none)), ("name1".data, (['x'], none))]
      [("name0".data, ['a', 'a']), ("name1".data, ['b', 'b'])]
      (by decide) (by rfl) (by rfl) (by decide)).2.2.2
    ['a', 'a'] ['b', 'b'] [(['x'], Value.String ['b', 'b'])] (by rfl) (by rfl) (by rfl)

/-! ### Single-fragment compilation (C7) -/

theorem hasOccur_self (p : Str) : hasOccur p p = true := by
  have := hasOccur_self_append p []
  rwa [List.append_nil] at this

theorem replaceFirst_self (p r : Str) : replaceFirst p p r = r := by
  have := replaceFirst_head p [] r
  rwa [List.append_nil, List.append_nil] at this

theorem word_not_dead {c : Char} (h : isWordChar c = true) : isDead c = false := by
  simp [isDead, isAliasChar, h]

theorem phStr_chars_not_dead {F : Str} (hw : ∀ c ∈ F, isWordChar c = true) :
    ∀ x ∈ phStr F, isDead x = false := by
  intro x hx
  rcases List.mem_cons.1 hx with h' | h'
  · subst h'; decide
  · rcases List.mem_cons.1 h' with h'' | h''
    · subst h''; decide
    · rcases List.mem_append.1 h'' with h3 | h3
      · exact word_not_dead (hw x h3)
      · rw [List.mem_singleton] at h3; subst h3; decide

theorem hasOccur_rparen_phStr (F : Str) : hasOccur [')'] (phStr F) = false := rfl

theorem matchAt_phStr_ne_none {F : Str} (hne : F ≠ [])
    (hw : ∀ c ∈ F, isWordChar c = true) : ∀ u, matchAt (phStr F ++ u) ≠ none := by
  intro u h
  rw [matchAt_phStr_append u hne hw] at h
  exact Option.noConfusion h

/-- After substituting the named group for `%\x7bF\x7d`, neither the
placeholder text nor any placeholder at all remains, provided the fragment body
contains none. -/
theorem group_no_occur {R F : Str} (pre2 : Str) (hpre2 : noPct pre2)
    (hR : grokFind R = none) (hne : F ≠ []) (hw : ∀ c ∈ F, isWordChar c = true) :
    hasOccur (pre2 ++ (R ++ [')'])) (phStr F) = false
    ∧ grokFind (pre2 ++ (R ++ [')'])) = none := by
  constructor
  · rw [hasOccur_append_noPct (R ++ [')']) (phStr F) hpre2 ⟨_, rfl⟩]
    exact not_occur_append_deadhead [] hR (matchAt_phStr_ne_none hne hw) (by decide)
      (phStr_chars_not_dead hw) (hasOccur_rparen_phStr F)
  · rw [grokFind_append_noPct _ hpre2, grokFind_append_dead hR (by decide)]
    decide

/-- C7: for a registered fragment `F` with placeholder-free body `R` and
template `%\x7bF\x7d`: with `aliasOnly = false` compilation produces the single
named group `(?<name0>R)` with the alias map binding `name0` to external name
`F` untagged, and parsing a text in which that group captured `v` succeeds with
key `F` bound to `String v` (provided no other capture name of the regex feeds
the external key `F`); with `aliasOnly = true` the occurrence becomes the
non-capturing group `(?:R)`, no alias entry is recorded, and — since a
non-capturing group contributes no capture name — key `F` is absent from every
successful parse whose capture-name list lacks `F`. -/
theorem c7_fragment_capture_alias_only (F R : Str) (reg defs : List (Str × Str))
    (fuel : Nat) (hne : F ≠ []) (hw : ∀ c ∈ F, isWordChar c = true)
    (hR : grokFind R = none) (hreg : alGet reg F = some R) :
    (compileExpand reg defs (phStr F) false (fuel + 2)
      = some (.ok ⟨namedGroup (genName 0) R, [(genName 0, (F, none))], 1⟩))
    ∧ (∀ (names : List Str) (caps : List (Str × Str)) (v : Str),
        names.Nodup → genName 0 ∈ names →
        (∀ n ∈ names, outKey [(genName 0, (F, none))] n = F → n = genName 0) →
        alGet caps (genName 0) = some v →
        ∃ m', parse names [(genName 0, (F, none))] (some caps) = .ok m'
          ∧ alGet m' F = some (.String v))
    ∧ (compileExpand reg defs (phStr F) true (fuel + 2)
      = some (.ok ⟨ncGroup R, [], 1⟩))
    ∧ (∀ (names : List Str) (caps : List (Str × Str)) (m' : List (Str × Value)),
        F ∉ names → parse names [] (some caps) = .ok m' → alGet m' F = none) := by
  have hfind : grokFind (ExpandState.haystack ⟨phStr F, [], 0⟩) = some ⟨F, none, none⟩ :=
    grokFind_of_matchAt (matchAt_ph [] hne hw)
  have hres : resolveFrag reg defs (GrokCaps.pattern ⟨F, none, none⟩) = some R := by
    show resolveFrag reg defs F = some R
    simp only [resolveFrag, hreg]
    rfl
  have hiter : ¬MAX_RECURSION ≤ 0 := by decide
  refine ⟨?_, ?_, ?_, ?_⟩
  · -- aliasOnly = false: compilation
    have heq : namedGroup (genName 0) R = (['(', '?', '<'] ++ (genName 0 ++ ['>'])) ++ (R ++ [')']) := by
      simp [namedGroup]
    have hpre2 : noPct (['(', '?', '<'] ++ (genName 0 ++ ['>'])) := by decide
    rcases group_no_occur (['(', '?', '<'] ++ (genName 0 ++ ['>'])) hpre2 hR hne hw with
      ⟨hng1, hng2⟩
    have hinner : innerLoop false ⟨F, none, none⟩ R (phOf ⟨F, none, none⟩) (fuel + 1)
        ⟨phStr F, [], 0⟩ = some ⟨namedGroup (genName 0) R, [(genName 0, (F, none))], 1⟩ := by
      rw [phOf_plain, innerLoop_step_named_none rfl rfl (hasOccur_self (phStr F))]
      show innerLoop false ⟨F, none, none⟩ R (phStr F) fuel
          ⟨replaceFirst (phStr F) (phStr F) (namedGroup (genName 0) R),
            [(genName 0, (F, none))], 1⟩
        = some ⟨namedGroup (genName 0) R, [(genName 0, (F, none))], 1⟩
      rw [replaceFirst_self]
      refine innerLoop_stop ?_
      show hasOccur (namedGroup (genName 0) R) (phStr F) = false
      rw [heq]
      exact hng1
    rw [compileExpand, expandLoop_found hfind hiter hres, hinner]
    refine expandLoop_done ?_
    show grokFind (namedGroup (genName 0) R) = none
    rw [heq]
    exact hng2
  · -- aliasOnly = false: parsing
    intro names caps v hnd hmem hwr hcap
    rcases List.append_of_mem hmem with ⟨u, w, rfl⟩
    obtain ⟨hu, hcw, hdisj⟩ := List.nodup_append.1 hnd
    have hty : ∀ n ∈ u ++ genName 0 :: w, ∀ p : Str × Option Str,
        alGet [(genName 0, (F, none))] n = some p → p.2 = none := by
      intro n _ p hp
      rw [alGet_cons] at hp
      by_cases hn : genName 0 = n
      · rw [if_pos hn] at hp
        cases hp
        rfl
      · rw [if_neg hn, alGet_nil] at hp
        exact Option.noConfusion hp
    obtain ⟨m', hok⟩ := parseLoop_untyped_ok hty []
    refine ⟨m', hok, ?_⟩
    have ham7 : alGet ([(genName 0, (F, none))] : AliasMap) (genName 0)
        = some ((F, none) : Str × Option Str) := by
      rw [alGet_cons, if_pos rfl]
    have hUu : ∀ n ∈ u, outKey [(genName 0, (F, none))] n = F → alGet caps n = none := by
      intro n hn hk
      have hne0 : n ≠ genName 0 := fun he => hdisj hn (he ▸ List.mem_cons_self _ _)
      exact absurd (hwr n (List.mem_append_left _ hn) hk) hne0
    have hUw : ∀ n ∈ w, outKey [(genName 0, (F, none))] n = F → alGet caps n = none := by
      intro n hn hk
      rw [List.nodup_cons] at hcw
      have hne0 : n ≠ genName 0 := fun he => hcw.1 (he ▸ hn)
      exact absurd (hwr n (List.mem_append_right _ (List.mem_cons_of_mem _ hn)) hk) hne0
    rcases parseLoop_split hok with ⟨mA, _, h⟩
    rw [parseLoop_writer_step _ _ hcap ham7] at h
    rw [parseLoop_untouched hUw h, alGet_alInsert_self]
  · -- aliasOnly = true: compilation
    have heq : ncGroup R = ['(', '?', ':'] ++ (R ++ [')']) := by
      simp [ncGroup]
    rcases group_no_occur ['(', '?', ':'] (by decide) hR hne hw with ⟨hng1, hng2⟩
    have hinner : innerLoop true ⟨F, none, none⟩ R (phOf ⟨F, none, none⟩) (fuel + 1)
        ⟨phStr F, [], 0⟩ = some ⟨ncGroup R, [], 1⟩ := by
      rw [phOf_plain, innerLoop_step_nc rfl rfl (hasOccur_self (phStr F))]
      show innerLoop true ⟨F, none, none⟩ R (phStr F) fuel
          ⟨replaceFirst (phStr F) (phStr F) (ncGroup R), [], 1⟩
        = some ⟨ncGroup R, [], 1⟩
      rw [replaceFirst_self]
      refine innerLoop_stop ?_
      show hasOccur (ncGroup R) (phStr F) = false
      rw [heq]
      exact hng1
    rw [compileExpand, expandLoop_found hfind hiter hres, hinner]
    refine expandLoop_done ?_
    show grokFind (ncGroup R) = none
    rw [heq]
    exact hng2
  · -- aliasOnly = true: parsing omits F
    intro names caps m' hF h
    by_contra hcon
    rcases parseLoop_keys h F hcon with h' | ⟨n, hn, hk⟩
    · exact h' (alGet_nil F)
    · rw [outKey, alGet_nil] at hk
      subst hk
      exact hF hn

/-- C7 witness: the repo's `NAME -> [A-z0-9._-]+` example: compiling
`%\x7bNAME\x7d` without aliasOnly yields `(?<name0>[A-z0-9._-]+)` aliased to
`NAME`, and parsing a match that captured `admin` binds key `NAME` to it. -/
theorem c7_witness :
    compileExpand [("NAME".data, "[A-z0-9._-]+".data)] [] (phStr "NAME".data) false 2
      = some (.ok ⟨namedGroup (genName 0) "[A-z0-9._-]+".data,
          [(genName 0, ("NAME".data, none))], 1⟩)
    ∧ ∃ m', parse [genName 0] [(genName 0, ("NAME".data, none))]
          (some [(genName 0, "admin".data)]) = .ok m'
        ∧ alGet m' "NAME".data = some (.String "admin".data) := by
  have h := c7_fragment_capture_alias_only "NAME".data "[A-z0-9._-]+".data
    [("NAME".data, "[A-z0-9._-]+".data)] [] 0 (by decide) (by decide) (by decide) (by rfl)
  exact ⟨h.1, h.2.1 [genName 0] [(genName 0, "admin".data)] "admin".data (by decide)
    (List.mem_cons_self _ _) (by decide) (by rfl)⟩
